import Mathlib

/-!
Verification development for the sellers-ads-metrics repository.

The Python sources `src/classification/url_classifier.py`,
`src/classification/ad_analyzer.py` and `src/discovery/site_mapper.py` are
shallowly embedded below.  Dynamic Python values that may appear in a raw ad
record are modelled by the inductive type `PyVal`; code that can raise a
Python exception is modelled in the `Except String` monad, the error string
naming the exception class.  Machine-level caveats: Python `str` is modelled
by Lean `String` (ASCII case mapping), and the float divisions in
`_calculate_confidence` and the ratio fields are modelled by exact rational
arithmetic over `ℚ`.
-/

namespace SellersAdsMetrics

/-- Characters treated as whitespace by Python `str.strip()` and by the
regex class for whitespace (ASCII subset: space, tab, LF, CR, VT, FF). -/
def isPySpace (c : Char) : Bool :=
  c == ' ' || c == '\t' || c == '\n' || c == '\r' || c == Char.ofNat 11 || c == Char.ofNat 12

/-- listStarts p l holds when p is a leading segment of l
(Python `startswith` on character lists). -/
def listStarts : List Char → List Char → Bool
  | [], _ => true
  | _ :: _, [] => false
  | a :: as, b :: bs => a == b && listStarts as bs

/-- listSub sub l holds when sub occurs contiguously inside l
(Python `in` on strings). -/
def listSub : List Char → List Char → Bool
  | sub, [] => sub.isEmpty
  | sub, l@(_ :: t) => listStarts sub l || listSub sub t

/-- strContains s sub models the Python test `sub in s` on strings. -/
def strContains (s sub : String) : Bool :=
  listSub sub.toList s.toList

/-- strStarts s p models Python `s.startswith(p)`. -/
def strStarts (s p : String) : Bool :=
  listStarts p.toList s.toList

/-- lowerStr models Python `str.lower()` (ASCII letters). -/
def lowerStr (s : String) : String :=
  String.mk (s.toList.map Char.toLower)

/-- Python `str.strip()` : drop whitespace from both ends. -/
def stripBoth (l : List Char) : List Char :=
  ((l.dropWhile isPySpace).reverse.dropWhile isPySpace).reverse

/-- The trailing punctuation characters removed by
`url.rstrip('.,;:!?)')` in `_extract_urls_from_ad`. -/
def TRAILING_PUNCT : List Char := ['.', ',', ';', ':', '!', '?', ')']

/-- Python `str.rstrip('.,;:!?)')`. -/
def rstripPunct (l : List Char) : List Char :=
  (l.reverse.dropWhile (fun c => TRAILING_PUNCT.contains c)).reverse

/-- The cleaning step `url.strip().rstrip('.,;:!?)')` applied to every
collected URL in `_extract_urls_from_ad`. -/
def cleanUrl (s : String) : String :=
  String.mk (rstripPunct (stripBoth s.toList))

/-- Characters excluded by the regex character class in the URL pattern of
`_extract_urls_from_ad`: whitespace, angle brackets and the double quote. -/
def bannedChar (c : Char) : Bool :=
  isPySpace c || c == '<' || c == '>' || c == '"'

/-- Try to match the URL regex at the very start of l for a fixed scheme
pattern p: the literal p followed by a maximal nonempty run of characters
outside the banned class.  Returns the match and the remaining input. -/
def matchUrlPre (p l : List Char) : Option (List Char × List Char) :=
  if listStarts p l then
    let rest := l.drop p.length
    let run := rest.takeWhile (fun c => !bannedChar c)
    if run.isEmpty then none else some (p ++ run, rest.drop run.length)
  else none

/-- Try to match the URL regex at the start of l, preferring the
https scheme (the optional s is greedy in the pattern). -/
def matchUrlAt (l : List Char) : Option (List Char × List Char) :=
  match matchUrlPre ("https://".toList) l with
  | some r => some r
  | none => matchUrlPre ("http://".toList) l

theorem listStarts_length {p l : List Char} (h : listStarts p l = true) :
    p.length ≤ l.length := by
  induction p generalizing l with
  | nil => simp
  | cons a as ih =>
    cases l with
    | nil => simp [listStarts] at h
    | cons b bs =>
      simp only [listStarts, Bool.and_eq_true] at h
      simpa using ih h.2

theorem matchUrlPre_rest_lt {p l u r : List Char} (hp : p ≠ [])
    (h : matchUrlPre p l = some (u, r)) : r.length < l.length := by
  simp only [matchUrlPre] at h
  split at h
  next hs =>
    split at h
    next => exact Option.noConfusion h
    next =>
      have h2 := Option.some.inj h
      have hr : r = (l.drop p.length).drop
          ((l.drop p.length).takeWhile (fun c => !bannedChar c)).length :=
        (congrArg Prod.snd h2).symm
      have hlen := listStarts_length hs
      have hp0 : 0 < p.length := List.length_pos.mpr hp
      have hle : r.length ≤ l.length - p.length := by
        rw [hr]
        simp only [List.length_drop]
        omega
      omega
  next => exact Option.noConfusion h

theorem matchUrlAt_rest_lt {l u r : List Char}
    (h : matchUrlAt l = some (u, r)) : r.length < l.length := by
  unfold matchUrlAt at h
  cases hh : matchUrlPre ("https://".toList) l with
  | some v =>
    rw [hh] at h
    cases h
    exact matchUrlPre_rest_lt (by decide) hh
  | none =>
    rw [hh] at h
    exact matchUrlPre_rest_lt (by decide) h

/-- Model of `re.findall(r'https?://[^\s<>"]+', text)`: scan left to right,
emit the leftmost maximal matches, continue after each match. -/
def scanUrls : List Char → List String
  | [] => []
  | c :: t =>
    match h : matchUrlAt (c :: t) with
    | some (u, rest) => String.mk u :: scanUrls rest
    | none => scanUrls t
termination_by l => l.length
decreasing_by
  · exact matchUrlAt_rest_lt h
  · simp

/-- findallUrls models `re.findall(r'https?://[^\s<>"]+', s)`. -/
def findallUrls (s : String) : List String :=
  scanUrls s.toList

/-- Dynamic Python values that can appear in a raw ad record. -/
inductive PyVal where
  | pnone : PyVal
  | pint : Int → PyVal
  | pstr : String → PyVal
  | plist : List PyVal → PyVal
  | pdict : List (String × PyVal) → PyVal

/-- Python truthiness for the modelled values. -/
def truthy : PyVal → Bool
  | .pnone => false
  | .pint n => n != 0
  | .pstr s => !s.isEmpty
  | .plist l => !l.isEmpty
  | .pdict d => !d.isEmpty

/-- Lookup in a Python dict (modelled as an insertion-ordered
association list). -/
def dictGet : List (String × PyVal) → String → Option PyVal
  | [], _ => none
  | (k0, v) :: t, k => if k0 = k then some v else dictGet t k

/-- Python `d.get(k, default)`. -/
def pyGet (d : List (String × PyVal)) (k : String) (dflt : PyVal) : PyVal :=
  (dictGet d k).getD dflt

def quoteChar : Char := Char.ofNat 39

def lbraceChar : Char := Char.ofNat 123

def rbraceChar : Char := Char.ofNat 125

mutual

/-- Model of Python `repr` for the modelled values (strings are shown
between single quotes; escaping subtleties are not needed here). -/
def pyRepr : PyVal → String
  | .pnone => "None"
  | .pint n => toString n
  | .pstr s => String.singleton quoteChar ++ s ++ String.singleton quoteChar
  | .plist xs => "[" ++ pyReprList xs ++ "]"
  | .pdict kvs => String.singleton lbraceChar ++ pyReprDict kvs ++ String.singleton rbraceChar

def pyReprList : List PyVal → String
  | [] => ""
  | [x] => pyRepr x
  | x :: y :: t => pyRepr x ++ ", " ++ pyReprList (y :: t)

def pyReprDict : List (String × PyVal) → String
  | [] => ""
  | [(k, v)] => String.singleton quoteChar ++ k ++ String.singleton quoteChar ++ ": " ++ pyRepr v
  | (k, v) :: e :: t =>
    String.singleton quoteChar ++ k ++ String.singleton quoteChar ++ ": " ++ pyRepr v
      ++ ", " ++ pyReprDict (e :: t)

end

/-- Model of Python `str()` on the modelled values. -/
def pyStr : PyVal → String
  | .pstr s => s
  | v => pyRepr v

/-! Embedding of `src/classification/url_classifier.py`. -/

/-- Result record returned by `URLClassifier.classify_ad`.  In the spec the
classification CONVERTY is called SELF and CONCURRENT is called COMPETITOR. -/
structure ClassificationResult where
  classification : String
  confidence : String
  reason : String
  destination_url : Option String
  competitor_domain : Option String
deriving DecidableEq

/-- The class attribute `URLClassifier.IGNORED_DOMAINS`. -/
def IGNORED_DOMAINS : List String :=
  ["facebook.com", "instagram.com", "fb.com", "fb.me",
   "bit.ly", "tinyurl.com", "l.facebook.com", "l.instagram.com"]

/-- Method `_is_ignored_domain`: some ignore-list entry occurs as a
substring of the lowercased domain. -/
def is_ignored_domain (domain : String) : Bool :=
  IGNORED_DOMAINS.any (fun ignored => strContains (lowerStr domain) ignored)

/-- Python `str.replace('www.', '')`: remove every leftmost,
non-overlapping occurrence of `www.` in a single left-to-right pass. -/
def removeWWW : List Char → List Char
  | 'w' :: 'w' :: 'w' :: '.' :: t => removeWWW t
  | c :: t => c :: removeWWW t
  | [] => []

/-- Netloc of `urllib.parse.urlparse` for a URL that starts with
http:// or https:// : the characters after the scheme\'s `//` up to the
first slash, question mark or hash. -/
def urlparseNetloc (u : String) : List Char :=
  (if listStarts ("https://".toList) u.toList then u.toList.drop 8
   else u.toList.drop 7).takeWhile (fun c => !(c == '/' || c == '?' || c == '#'))

/-- Method `_extract_domain`: default the scheme to http:// when absent,
take the netloc as urlparse does, lowercase it, delete the occurrences of
`www.`, drop everything from the first colon, and fail on emptiness. -/
def extract_domain (url : String) : Option String :=
  let url2 := if strStarts url "http://" || strStarts url "https://" then url
              else "http://" ++ url
  let netloc := urlparseNetloc url2
  if netloc.isEmpty then none
  else
    let d1 := netloc.map Char.toLower
    let d2 := removeWWW d1
    let d3 := if d2.contains ':' then d2.takeWhile (fun c => !(c == ':')) else d2
    if d3.isEmpty then none else some (String.mk d3)

/-- The `for card in cards` loop body of `_extract_urls_from_ad`: each card
must be a dict, and its truthy `link_url` values are collected in order.
A non-dict card raises AttributeError at its `.get` call. -/
def collectCardUrls : List PyVal → Except String (List PyVal)
  | [] => .ok []
  | .pdict card :: t => do
    let rest ← collectCardUrls t
    let cu := pyGet card "link_url" .pnone
    pure (if truthy cu then cu :: rest else rest)
  | _ :: _ => .error "AttributeError"

/-- Iterating the `cards` value: lists iterate their card dicts, nonempty
strings iterate characters (which then fail the `.get` call) and nonempty
dicts iterate their keys (same failure); None and ints are not iterable. -/
def iterateCards : PyVal → Except String (List PyVal)
  | .plist cs => collectCardUrls cs
  | .pstr s => if s.isEmpty then .ok [] else .error "AttributeError"
  | .pdict d => if d.isEmpty then .ok [] else .error "AttributeError"
  | .pnone => .error "TypeError"
  | .pint _ => .error "TypeError"

/-- The `if text: re.findall(...)` steps for `caption` and for the body
text: a truthy non-string value raises TypeError inside `re.findall`. -/
def findallIfText : PyVal → Except String (List String)
  | v =>
    if truthy v then
      match v with
      | .pstr s => .ok (findallUrls s)
      | _ => .error "TypeError"
    else .ok []

/-- Resolution of the `body` field: a dict resolves to its `text` entry
(defaulting to the empty string), anything else passes through `str()`. -/
def bodyTextOf : PyVal → PyVal
  | .pdict b => pyGet b "text" (.pstr "")
  | v => .pstr (pyStr v)

/-- Collection phase of `_extract_urls_from_ad`: the raw `urls` list in
source order (snapshot link_url, card link_urls, caption matches, body
matches), before cleaning and deduplication. -/
def collectRawPy (ad : List (String × PyVal)) : Except String (List PyVal) :=
  match pyGet ad "snapshot" (.pdict []) with
  | .pdict snap => do
    let link := pyGet snap "link_url" .pnone
    let linkPart := if truthy link then [link] else []
    let cardPart ← iterateCards (pyGet snap "cards" (.plist []))
    let capPart ← findallIfText (pyGet snap "caption" (.pstr ""))
    let bodPart ← findallIfText (bodyTextOf (pyGet snap "body" (.pdict [])))
    pure (linkPart ++ cardPart ++ capPart.map .pstr ++ bodPart.map .pstr)
  | _ => .error "AttributeError"

/-- Deduplication phase of `_extract_urls_from_ad`: every collected value
is cleaned by `strip().rstrip('.,;:!?)')` and kept when nonempty and not
seen before; a non-string value raises AttributeError at `.strip()`. -/
def dedupCleanPy (seen : List String) : List PyVal → Except String (List String)
  | [] => .ok []
  | .pstr u :: t =>
    let u2 := cleanUrl u
    if !u2.isEmpty && !seen.contains u2 then do
      let rest ← dedupCleanPy (u2 :: seen) t
      pure (u2 :: rest)
    else dedupCleanPy seen t
  | _ :: _ => .error "AttributeError"

/-- Method `_extract_urls_from_ad`. -/
def extract_urls_from_ad (ad : List (String × PyVal)) : Except String (List String) := do
  let urls ← collectRawPy ad
  dedupCleanPy [] urls

/-- The result dict returned by `classify_ad` when no URL was found. -/
def unknownLowResult : ClassificationResult :=
  ⟨"UNKNOWN", "low", "Aucune URL trouvée dans la publicité", none, none⟩

/-- The result dict returned by `classify_ad` when the candidates are
exhausted: destination_url is the first candidate when one exists. -/
def unknownMediumResult (urls : List String) : ClassificationResult :=
  ⟨"UNKNOWN", "medium", "Aucune URL commerciale identifiée", urls.head?, none⟩

/-- The CONVERTY (spec: SELF) result dict of `classify_ad`. -/
def convertyResult (converty_domain url : String) : ClassificationResult :=
  ⟨"CONVERTY", "high", "URL contient le domaine Converty: " ++ converty_domain,
    some url, none⟩

/-- The CONCURRENT (spec: COMPETITOR) result dict of `classify_ad`. -/
def concurrentResult (domain url : String) : ClassificationResult :=
  ⟨"CONCURRENT", "high", "URL pointe vers un domaine concurrent: " ++ domain,
    some url, some domain⟩

/-- The `for url in urls` loop of `classify_ad`: first URL containing the
owned domain case-insensitively wins as CONVERTY; otherwise the first URL
with an extractable, non-ignored domain wins as CONCURRENT; `none` when
the loop falls through. -/
def classifyUrlList (converty_domain : String) : List String → Option ClassificationResult
  | [] => none
  | url :: rest =>
    let url_lower := lowerStr url
    if strContains url_lower (lowerStr converty_domain) then
      some (convertyResult converty_domain url)
    else
      match extract_domain url with
      | none => classifyUrlList converty_domain rest
      | some domain =>
        if is_ignored_domain domain then classifyUrlList converty_domain rest
        else some (concurrentResult domain url)

/-- Dispatch on the extracted URL list inside `classify_ad`. -/
def classifyFromUrls (converty_domain : String) (urls : List String) : ClassificationResult :=
  if urls.isEmpty then unknownLowResult
  else
    match classifyUrlList converty_domain urls with
    | some r => r
    | none => unknownMediumResult urls

/-- Method `classify_ad`. -/
def classify_ad (ad : List (String × PyVal)) (converty_domain : String) :
    Except String ClassificationResult := do
  let urls ← extract_urls_from_ad ad
  pure (classifyFromUrls converty_domain urls)

/-! Embedding of `src/discovery/site_mapper.py` (the part the claims are
about).  The float division `page_ads / total_ads` and the literals 0.7
and 0.3 are modelled exactly over `ℚ`. -/

/-- Method `SiteMapper._calculate_confidence`. -/
def calculate_confidence (page_ads : ℕ) (total_ads : ℕ) : String :=
  if total_ads = 0 then "low"
  else
    let ratio : ℚ := (page_ads : ℚ) / (total_ads : ℚ)
    if ratio ≥ 7/10 then "high"
    else if ratio ≥ 3/10 then "medium"
    else "low"

/-! Embedding of `src/classification/ad_analyzer.py`.  The external Apify
client is a collaborator: the ads it returns for a page are taken as an
input of `analyze_page`.  Ratio fields are modelled over `ℚ`. -/

/-- One record of the `classified_ads` list built in `_analyze_page`. -/
structure ClassifiedAd where
  ad_id : PyVal
  classification : String
  confidence : String
  reason : String
  destination_url : Option String
  competitor_domain : Option String
  ad_creation_time : PyVal
  ad_delivery_start_time : PyVal

/-- The per-page analysis record returned by `_analyze_page`. -/
structure PageAnalysis where
  page_id : PyVal
  page_name : PyVal
  converty_domain : String
  total_ads : ℕ
  converty_ads : ℕ
  concurrent_ads : ℕ
  unknown_ads : ℕ
  converty_ratio : ℚ
  concurrent_ratio : ℚ
  competitors : List (String × ℕ)
  classified_ads : List ClassifiedAd

/-- Python `d[k] = d.get(k, 0) + c` on an insertion-ordered dict:
update the existing entry in place, or append a new one at the end. -/
def upsert : List (String × ℕ) → String → ℕ → List (String × ℕ)
  | [], d, c => [(d, c)]
  | (d0, c0) :: t, d, c =>
    if d0 = d then (d0, c0 + c) :: t else (d0, c0) :: upsert t d c

/-- Stable insertion of an entry into a count-descending list: the new
entry goes before the first entry whose count does not exceed it. -/
def insertDesc (x : String × ℕ) : List (String × ℕ) → List (String × ℕ)
  | [] => [x]
  | y :: t => if x.2 ≥ y.2 then x :: y :: t else y :: insertDesc x t

/-- Model of Python `sorted(items, key=count, reverse=True)`: a stable
sort descending by count (ties keep their original order). -/
def sortDesc : List (String × ℕ) → List (String × ℕ)
  | [] => []
  | x :: t => insertDesc x (sortDesc t)

/-- Accumulator of the classification loop in `_analyze_page`. -/
structure PageLoopState where
  classified_ads : List ClassifiedAd
  converty_count : ℕ
  concurrent_count : ℕ
  unknown_count : ℕ
  competitors : List (String × ℕ)

/-- One iteration of the `for ad in all_page_ads` loop of `_analyze_page`:
classify the ad, record it, bump the matching counter, and tally the
competitor domain when it is truthy. -/
def analyzePageStep (converty_domain : String) (st : PageLoopState)
    (ad : List (String × PyVal)) : Except String PageLoopState := do
  let c ← classify_ad ad converty_domain
  let classified : ClassifiedAd :=
    ⟨pyGet ad "ad_archive_id" .pnone, c.classification, c.confidence, c.reason,
      c.destination_url, c.competitor_domain,
      pyGet ad "ad_creation_time" .pnone, pyGet ad "ad_delivery_start_time" .pnone⟩
  if c.classification = "CONVERTY" then
    pure ⟨st.classified_ads ++ [classified], st.converty_count + 1,
      st.concurrent_count, st.unknown_count, st.competitors⟩
  else if c.classification = "CONCURRENT" then
    pure ⟨st.classified_ads ++ [classified], st.converty_count,
      st.concurrent_count + 1, st.unknown_count,
      match c.competitor_domain with
      | some d => if d.isEmpty then st.competitors else upsert st.competitors d 1
      | none => st.competitors⟩
  else
    pure ⟨st.classified_ads ++ [classified], st.converty_count,
      st.concurrent_count, st.unknown_count + 1, st.competitors⟩

/-- Method `_analyze_page`, with the ads fetched for the page by the
external client passed in as `all_page_ads`. -/
def analyze_page (page : List (String × PyVal)) (converty_domain : String)
    (all_page_ads : List (List (String × PyVal))) : Except String PageAnalysis := do
  let page_id ← match dictGet page "page_id" with
    | some v => Except.ok v
    | none => Except.error "KeyError"
  let page_name ← match dictGet page "page_name" with
    | some v => Except.ok v
    | none => Except.error "KeyError"
  let st ← all_page_ads.foldlM (analyzePageStep converty_domain) ⟨[], 0, 0, 0, []⟩
  let total := st.classified_ads.length
  let converty_ratio : ℚ := if total > 0 then (st.converty_count : ℚ) / (total : ℚ) * 100 else 0
  let concurrent_ratio : ℚ := if total > 0 then (st.concurrent_count : ℚ) / (total : ℚ) * 100 else 0
  pure ⟨page_id, page_name, converty_domain, total, st.converty_count,
    st.concurrent_count, st.unknown_count, converty_ratio, concurrent_ratio,
    sortDesc st.competitors, st.classified_ads⟩

/-- The `all_competitors` dict built by `_aggregate_competitors`, in
insertion order: every page's competitor entries are folded in, summing
counts per domain. -/
def allCompetitorsDict (page_analyses : List PageAnalysis) : List (String × ℕ) :=
  page_analyses.foldl
    (fun acc pa => pa.competitors.foldl (fun m e => upsert m e.1 e.2) acc) []

/-- Method `_aggregate_competitors`: the merged histogram sorted
descending by aggregate count. -/
def aggregate_competitors (page_analyses : List PageAnalysis) : List (String × ℕ) :=
  sortDesc (allCompetitorsDict page_analyses)

/-- The `top_competitors` field of the report built in `analyze_client`:
the aggregate list truncated to its first 20 entries. -/
def top_competitors (page_analyses : List PageAnalysis) : List (String × ℕ) :=
  (aggregate_competitors page_analyses).take 20

/-! Derived notions used to state the claims. -/

/-- A candidate URL that the `classify_ad` loop passes over: it does not
contain the owned domain case-insensitively, and its host either fails to
extract or is on the ignore list. -/
def skipsUrl (converty_domain url : String) : Bool :=
  !strContains (lowerStr url) (lowerStr converty_domain) &&
    (match extract_domain url with
     | none => true
     | some d => is_ignored_domain d)

/-- Confidence levels ordered low < medium < high. -/
def confLevel : String → ℕ
  | "high" => 2
  | "medium" => 1
  | _ => 0

/-- Aggregate number of ads attributed to domain d across the competitor
lists of all pages. -/
def totalCompetitorCount (page_analyses : List PageAnalysis) (d : String) : ℕ :=
  (page_analyses.map
    (fun pa => ((pa.competitors.filter (fun e => e.1 = d)).map (fun e => e.2)).sum)).sum

/-- Sum of the ads_count fields of a competitor list. -/
def sumCounts (l : List (String × ℕ)) : ℕ :=
  (l.map (fun e => e.2)).sum

/-- Total count attributed to key x by an association list (0 for an
absent key; sums duplicate keys). -/
def countOf : List (String × ℕ) → String → ℕ
  | [], _ => 0
  | (k, v) :: t, x => (if k = x then v else 0) + countOf t x

/-! Spec-side definitions, written from the spec text, to be compared
with the embedded source functions. -/

/-- Remove every leftmost, non-overlapping occurrence of a pattern in a
single left-to-right pass (generic form, used by the spec-side host
extraction). -/
def removeAllOcc (pat : List Char) : List Char → List Char
  | [] => []
  | c :: t =>
    if pat ≠ [] ∧ listStarts pat (c :: t) = true then removeAllOcc pat ((c :: t).drop pat.length)
    else c :: removeAllOcc pat t
termination_by l => l.length
decreasing_by
  · rename_i hcond
    have hp : pat ≠ [] := hcond.1
    have : 0 < pat.length := List.length_pos.mpr hp
    simp only [List.length_drop, List.length_cons]
    omega
  · simp

/-- Modelled from the spec (section 4.2 step b, as amended): default the
scheme, select the authority component, lowercase it, remove every
occurrence of `www.` in one pass, keep everything before the first
colon, fail on emptiness. -/
def extract_domain_spec (url : String) : Option String :=
  let u := if strStarts url "http://" || strStarts url "https://" then url
           else "http://" ++ url
  let hostPort := urlparseNetloc u
  if hostPort = [] then none
  else
    let host := (removeAllOcc ("www.".toList) (hostPort.map Char.toLower)).takeWhile
      (fun c => !(c == ':'))
    if host = [] then none else some (String.mk host)

/-- The seen-set fold of the deduplication loop of
`_extract_urls_from_ad`, acting on already-cleaned strings. -/
def dedupSeen (seen : List String) : List String → List String
  | [] => []
  | u :: t =>
    if !u.isEmpty && !seen.contains u then u :: dedupSeen (u :: seen) t
    else dedupSeen seen t

/-- Modelled from the spec (section 4.1): first-occurrence, exact-string
deduplication that also drops candidates that cleaned to the empty
string. -/
def specDedup : List String → List String
  | [] => []
  | u :: t => if u = "" then specDedup t else u :: specDedup (t.filter (fun v => v ≠ u))
termination_by l => l.length
decreasing_by
  · simp
  · simp only [List.length_cons]
    exact Nat.lt_succ_of_le (List.length_filter_le _ _)

/-- Modelled from the spec (section 4.1, source 2): the cards' link_urls
in card order, as strings; a card that is not a dict, or a truthy
link_url that is not a string, is a dynamic failure. -/
def specCardUrls : List PyVal → Except String (List String)
  | [] => .ok []
  | .pdict card :: t => do
    let rest ← specCardUrls t
    match pyGet card "link_url" .pnone with
    | .pstr s => pure (if s.isEmpty then rest else s :: rest)
    | v => if truthy v then .error "AttributeError" else pure rest
  | _ :: _ => .error "AttributeError"

/-- Modelled from the spec (section 4.1, source 2): iterating the cards
value, as in `iterateCards` but producing strings. -/
def specCards : PyVal → Except String (List String)
  | .plist cs => specCardUrls cs
  | .pstr s => if s.isEmpty then .ok [] else .error "AttributeError"
  | .pdict d => if d.isEmpty then .ok [] else .error "AttributeError"
  | .pnone => .error "TypeError"
  | .pint _ => .error "TypeError"

/-- Modelled from the spec (section 4.1, source 1): snapshot.link_url as
a singleton string list when present and truthy; a truthy non-string is a
dynamic failure. -/
def specLink : PyVal → Except String (List String)
  | .pstr s => .ok (if s.isEmpty then [] else [s])
  | v => if truthy v then .error "AttributeError" else .ok []

/-- Modelled from the spec (section 4.1): the four URL sources in fixed
priority order, each cleaned of surrounding whitespace and trailing
punctuation, deduplicated by exact string equality keeping first
occurrences. -/
def extractUrlsSpec (ad : List (String × PyVal)) : Except String (List String) :=
  match pyGet ad "snapshot" (.pdict []) with
  | .pdict snap => do
    let linkPart ← specLink (pyGet snap "link_url" .pnone)
    let cardPart ← specCards (pyGet snap "cards" (.plist []))
    let capPart ← findallIfText (pyGet snap "caption" (.pstr ""))
    let bodPart ← findallIfText (bodyTextOf (pyGet snap "body" (.pdict [])))
    pure (specDedup ((linkPart ++ cardPart ++ capPart ++ bodPart).map cleanUrl))
  | _ => .error "AttributeError"

/-- Values that behave as a string where the source expects one, or are
dropped by a truthiness test before being used as one. -/
def strOrFalsy : PyVal → Bool
  | .pstr _ => true
  | v => !truthy v

/-- A cards value the extraction loop traverses without a dynamic
failure. -/
def cardsWellTyped : PyVal → Bool
  | .plist cs => cs.all (fun c => match c with
      | .pdict card => strOrFalsy (pyGet card "link_url" .pnone)
      | _ => false)
  | .pstr s => s.isEmpty
  | .pdict d => d.isEmpty
  | _ => false

/-- An ad record whose nested fields are well-typed wherever
`_extract_urls_from_ad` accesses them. -/
def adWellTyped (ad : List (String × PyVal)) : Bool :=
  match pyGet ad "snapshot" (.pdict []) with
  | .pdict snap =>
    strOrFalsy (pyGet snap "link_url" .pnone) &&
    cardsWellTyped (pyGet snap "cards" (.plist [])) &&
    strOrFalsy (pyGet snap "caption" (.pstr "")) &&
    strOrFalsy (bodyTextOf (pyGet snap "body" (.pdict [])))
  | _ => false

/-- Witness ad for C1: the first candidate is a skipped Facebook redirect,
the second (a card URL) contains the owned domain. -/
def sampleSelfAd : List (String × PyVal) :=
  [("snapshot", PyVal.pdict
    [("link_url", .pstr "https://l.facebook.com/r"),
     ("cards", .plist [.pdict [("link_url", .pstr "https://TBshopp.com/x")]])])]

/-- Witness ad for C2: an ignored redirect first, then a commercial
competitor URL. -/
def sampleCompetitorAd : List (String × PyVal) :=
  [("snapshot", PyVal.pdict
    [("link_url", .pstr "https://l.facebook.com/l.php?u=x"),
     ("cards", .plist [.pdict [("link_url", .pstr "https://www.RivalShop.io:443/x")]])])]

/-- Sample page analyses for the C8 witness: one page with x.com, one
with tied y.com and z.com. -/
def samplePageA : PageAnalysis :=
  ⟨.pnone, .pnone, "d.com", 0, 0, 0, 0, 0, 0, [("x.com", 3)], []⟩

def samplePageB : PageAnalysis :=
  ⟨.pnone, .pnone, "d.com", 0, 0, 0, 0, 0, 0, [("x.com", 2), ("y.com", 2), ("z.com", 2)], []⟩

/-- Loop invariant of the classification loop in analyze_page. -/
def pageInv (st : PageLoopState) : Prop :=
  st.converty_count + st.concurrent_count + st.unknown_count = st.classified_ads.length ∧
  sumCounts st.competitors = st.concurrent_count

/-! Lemmas about the classification loop. -/

theorem except_bind_ok {α β : Type} (a : α) (f : α → Except String β) :
    (Except.ok a >>= f) = f a := rfl

theorem skipsUrl_iff {dom v : String} :
    skipsUrl dom v = true ↔
      strContains (lowerStr v) (lowerStr dom) = false ∧
        ∀ d, extract_domain v = some d → is_ignored_domain d = true := by
  unfold skipsUrl
  cases h : extract_domain v <;>
    simp [h, Bool.and_eq_true, Bool.not_eq_true']

theorem classifyUrlList_cons_skip {dom v : String} {l : List String}
    (hv : skipsUrl dom v = true) :
    classifyUrlList dom (v :: l) = classifyUrlList dom l := by
  obtain ⟨h1, h2⟩ := skipsUrl_iff.mp hv
  cases hd : extract_domain v with
  | none =>
    conv_lhs => rw [classifyUrlList]
    simp [h1, hd]
  | some d =>
    conv_lhs => rw [classifyUrlList]
    simp [h1, hd, h2 d hd]

theorem classifyUrlList_append_skip {dom : String} {pre l : List String}
    (h : ∀ v ∈ pre, skipsUrl dom v = true) :
    classifyUrlList dom (pre ++ l) = classifyUrlList dom l := by
  induction pre with
  | nil => rfl
  | cons v t ih =>
    rw [List.cons_append, classifyUrlList_cons_skip (h v (by simp))]
    exact ih (fun w hw => h w (by simp [hw]))

theorem classifyUrlList_cons_self {dom u : String} {l : List String}
    (hu : strContains (lowerStr u) (lowerStr dom) = true) :
    classifyUrlList dom (u :: l) = some (convertyResult dom u) := by
  unfold classifyUrlList
  simp [hu]

theorem classifyUrlList_cons_comp {dom u d : String} {l : List String}
    (h1 : strContains (lowerStr u) (lowerStr dom) = false)
    (h2 : extract_domain u = some d)
    (h3 : is_ignored_domain d = false) :
    classifyUrlList dom (u :: l) = some (concurrentResult d u) := by
  unfold classifyUrlList
  simp [h1, h2, h3]

theorem classifyUrlList_eq_none_iff {dom : String} {l : List String} :
    classifyUrlList dom l = none ↔ ∀ v ∈ l, skipsUrl dom v = true := by
  induction l with
  | nil => simp [classifyUrlList]
  | cons u t ih =>
    by_cases hc : strContains (lowerStr u) (lowerStr dom) = true
    · rw [classifyUrlList_cons_self hc]
      constructor
      · intro h
        exact Option.noConfusion h
      · intro h
        have hu := (skipsUrl_iff.mp (h u (by simp))).1
        rw [hc] at hu
        exact Bool.noConfusion hu
    · have hc' : strContains (lowerStr u) (lowerStr dom) = false := by
        simpa using hc
      cases hd : extract_domain u with
      | none =>
        have hskip : skipsUrl dom u = true :=
          skipsUrl_iff.mpr ⟨hc', fun d hd' => by rw [hd'] at hd; exact Option.noConfusion hd⟩
        rw [classifyUrlList_cons_skip hskip, ih]
        constructor
        · intro h v hv
          rcases List.mem_cons.mp hv with rfl | hv
          · exact hskip
          · exact h v hv
        · intro h v hv
          exact h v (by simp [hv])
      | some d =>
        by_cases hig : is_ignored_domain d = true
        · have hskip : skipsUrl dom u = true :=
            skipsUrl_iff.mpr ⟨hc', fun d' hd' => by
              rw [hd] at hd'
              exact (Option.some.inj hd') ▸ hig⟩
          rw [classifyUrlList_cons_skip hskip, ih]
          constructor
          · intro h v hv
            rcases List.mem_cons.mp hv with rfl | hv
            · exact hskip
            · exact h v hv
          · intro h v hv
            exact h v (by simp [hv])
        · rw [classifyUrlList_cons_comp hc' hd (by simpa using hig)]
          constructor
          · intro h
            exact Option.noConfusion h
          · intro h
            have := (skipsUrl_iff.mp (h u (by simp))).2 d hd
            exact absurd this hig

theorem classifyUrlList_some_shape {dom : String} {l : List String} {r : ClassificationResult}
    (h : classifyUrlList dom l = some r) :
    (∃ u, r = convertyResult dom u) ∨
      (∃ d u, r = concurrentResult d u ∧ extract_domain u = some d ∧
        is_ignored_domain d = false) := by
  induction l with
  | nil => exact Option.noConfusion h
  | cons u t ih =>
    by_cases hc : strContains (lowerStr u) (lowerStr dom) = true
    · rw [classifyUrlList_cons_self hc] at h
      exact Or.inl ⟨u, (Option.some.inj h).symm⟩
    · have hc' : strContains (lowerStr u) (lowerStr dom) = false := by simpa using hc
      cases hd : extract_domain u with
      | none =>
        rw [classifyUrlList_cons_skip
          (skipsUrl_iff.mpr ⟨hc', fun d hd' => by rw [hd'] at hd; exact Option.noConfusion hd⟩)] at h
        exact ih h
      | some d =>
        by_cases hig : is_ignored_domain d = true
        · rw [classifyUrlList_cons_skip
            (skipsUrl_iff.mpr ⟨hc', fun d' hd' => by
              rw [hd] at hd'
              exact (Option.some.inj hd') ▸ hig⟩)] at h
          exact ih h
        · rw [classifyUrlList_cons_comp hc' hd (by simpa using hig)] at h
          exact Or.inr ⟨d, u, (Option.some.inj h).symm, hd, by simpa using hig⟩

theorem classify_ad_ok_iff {ad : List (String × PyVal)} {dom : String} {r : ClassificationResult} :
    classify_ad ad dom = .ok r ↔
      ∃ urls, extract_urls_from_ad ad = .ok urls ∧ r = classifyFromUrls dom urls := by
  unfold classify_ad
  cases hx : extract_urls_from_ad ad with
  | error e =>
    constructor
    · intro h
      exact Except.noConfusion h
    · rintro ⟨urls, hu, _⟩
      exact Except.noConfusion hu
  | ok l =>
    rw [except_bind_ok]
    constructor
    · intro h
      exact ⟨l, rfl, (Except.ok.inj h).symm⟩
    · rintro ⟨urls, hu, hr⟩
      obtain rfl := Except.ok.inj hu
      rw [hr]
      rfl

theorem classifyFromUrls_nonempty {dom u : String} {rest : List String} :
    classifyFromUrls dom (u :: rest) =
      match classifyUrlList dom (u :: rest) with
      | some r => r
      | none => unknownMediumResult (u :: rest) := by
  rfl

/-! Claim theorems for the classifier. -/

/-- C1: for every ad and owned domain, `classify_ad` walks the extracted
candidates in extraction order and, as soon as a URL contains the owned
domain as a case-insensitive substring (all earlier candidates having
been passed over), returns classification CONVERTY (spec: SELF) with
confidence high and that URL as destination_url — whatever candidates
come after it. -/
theorem classify_self_on_first_owned_match
    (ad : List (String × PyVal)) (converty_domain : String)
    (pre rest : List String) (u : String)
    (hx : extract_urls_from_ad ad = .ok (pre ++ u :: rest))
    (hpre : ∀ v ∈ pre, skipsUrl converty_domain v = true)
    (hu : strContains (lowerStr u) (lowerStr converty_domain) = true) :
    classify_ad ad converty_domain = .ok (convertyResult converty_domain u) := by
  rw [classify_ad_ok_iff]
  refine ⟨pre ++ u :: rest, hx, ?_⟩
  have hne : (pre ++ u :: rest).isEmpty = false := by cases pre <;> rfl
  unfold classifyFromUrls
  rw [hne, classifyUrlList_append_skip hpre, classifyUrlList_cons_self hu]
  rfl

/-- Witness for C1 at a concrete ad. -/
theorem classify_self_on_first_owned_match_witness :
    classify_ad sampleSelfAd "tbshopp.com" =
      .ok (convertyResult "tbshopp.com" "https://TBshopp.com/x") :=
  classify_self_on_first_owned_match sampleSelfAd "tbshopp.com"
    ["https://l.facebook.com/r"] [] "https://TBshopp.com/x"
    (by rfl) (by decide) (by decide)

/-- C2: for every ad and owned domain, `classify_ad` skips every candidate
whose host is on the ignore list and returns CONCURRENT (spec: COMPETITOR)
with confidence high, the extracted host as competitor_domain and the URL
as destination_url, at the first candidate whose host extracts and is not
ignored (no earlier candidate containing the owned domain); consequently a
host matching the ignore list is never returned as competitor_domain. -/
theorem classify_competitor_skips_ignored :
    (∀ (ad : List (String × PyVal)) (converty_domain : String)
      (pre rest : List String) (u d : String),
      extract_urls_from_ad ad = .ok (pre ++ u :: rest) →
      (∀ v ∈ pre, skipsUrl converty_domain v = true) →
      strContains (lowerStr u) (lowerStr converty_domain) = false →
      extract_domain u = some d →
      is_ignored_domain d = false →
      classify_ad ad converty_domain = .ok (concurrentResult d u)) ∧
    (∀ (ad : List (String × PyVal)) (converty_domain : String)
      (r : ClassificationResult),
      classify_ad ad converty_domain = .ok r →
      ∀ d, r.competitor_domain = some d → is_ignored_domain d = false) := by
  constructor
  · intro ad converty_domain pre rest u d hx hpre hu hd hig
    rw [classify_ad_ok_iff]
    refine ⟨pre ++ u :: rest, hx, ?_⟩
    have hne : (pre ++ u :: rest).isEmpty = false := by cases pre <;> rfl
    unfold classifyFromUrls
    rw [hne, classifyUrlList_append_skip hpre, classifyUrlList_cons_comp hu hd hig]
    rfl
  · intro ad converty_domain r hr d hcd
    obtain ⟨urls, _, rfl⟩ := classify_ad_ok_iff.mp hr
    unfold classifyFromUrls at hcd
    by_cases hne : urls.isEmpty = true
    · rw [hne] at hcd
      exact Option.noConfusion (hcd : (none : Option String) = some d)
    · rw [Bool.not_eq_true] at hne
      rw [hne] at hcd
      cases hc : classifyUrlList converty_domain urls with
      | none =>
        rw [hc] at hcd
        exact Option.noConfusion (hcd : (none : Option String) = some d)
      | some r0 =>
        rw [hc] at hcd
        rcases classifyUrlList_some_shape hc with ⟨u, rfl⟩ | ⟨d0, u, rfl, _, hig⟩
        · exact Option.noConfusion (hcd : (none : Option String) = some d)
        · have : d0 = d := Option.some.inj hcd
          exact this ▸ hig

/-- Witness for C2 at a concrete ad: both conjuncts applied at explicit
inputs. -/
theorem classify_competitor_skips_ignored_witness :
    classify_ad sampleCompetitorAd "tbshopp.com" =
      .ok (concurrentResult "rivalshop.io" "https://www.RivalShop.io:443/x") ∧
    is_ignored_domain "rivalshop.io" = false := by
  constructor
  · exact classify_competitor_skips_ignored.1 sampleCompetitorAd "tbshopp.com"
      ["https://l.facebook.com/l.php?u=x"] [] "https://www.RivalShop.io:443/x" "rivalshop.io"
      (by rfl) (by decide) (by decide) (by decide) (by decide)
  · exact classify_competitor_skips_ignored.2 sampleCompetitorAd "tbshopp.com"
      (concurrentResult "rivalshop.io" "https://www.RivalShop.io:443/x")
      (classify_competitor_skips_ignored.1 sampleCompetitorAd "tbshopp.com"
        ["https://l.facebook.com/l.php?u=x"] [] "https://www.RivalShop.io:443/x" "rivalshop.io"
        (by rfl) (by decide) (by decide) (by decide) (by decide))
      "rivalshop.io" rfl

/-- C3: `classify_ad` returns UNKNOWN exactly when no candidate yields
CONVERTY or CONCURRENT: with confidence low and absent destination_url on
an empty candidate list, and with confidence medium and the first
candidate as destination_url when candidates exist but are exhausted. -/
theorem classify_unknown_characterisation :
    (∀ (ad : List (String × PyVal)) (converty_domain : String),
      extract_urls_from_ad ad = .ok [] →
      classify_ad ad converty_domain = .ok unknownLowResult) ∧
    (∀ (ad : List (String × PyVal)) (converty_domain u : String) (rest : List String),
      extract_urls_from_ad ad = .ok (u :: rest) →
      (∀ v ∈ u :: rest, skipsUrl converty_domain v = true) →
      classify_ad ad converty_domain =
        .ok ⟨"UNKNOWN", "medium", "Aucune URL commerciale identifiée", some u, none⟩) ∧
    (∀ (ad : List (String × PyVal)) (converty_domain : String)
      (urls : List String) (r : ClassificationResult),
      extract_urls_from_ad ad = .ok urls →
      classify_ad ad converty_domain = .ok r →
      (r.classification = "UNKNOWN" ↔ ∀ v ∈ urls, skipsUrl converty_domain v = true)) := by
  refine ⟨?_, ?_, ?_⟩
  · intro ad converty_domain hx
    rw [classify_ad_ok_iff]
    exact ⟨[], hx, rfl⟩
  · intro ad converty_domain u rest hx hskip
    rw [classify_ad_ok_iff]
    refine ⟨u :: rest, hx, ?_⟩
    unfold classifyFromUrls
    rw [show (u :: rest).isEmpty = false from rfl,
      classifyUrlList_eq_none_iff.mpr hskip]
    rfl
  · intro ad converty_domain urls r hx hr
    obtain ⟨urls2, hx2, rfl⟩ := classify_ad_ok_iff.mp hr
    rw [hx] at hx2
    injection hx2 with hsame
    subst hsame
    cases urls with
    | nil =>
      simp only [classifyFromUrls, List.isEmpty_nil, if_true]
      constructor
      · intro _ v hv
        exact absurd hv (List.not_mem_nil v)
      · intro _
        rfl
    | cons u rest =>
      rw [classifyFromUrls_nonempty]
      cases hc : classifyUrlList converty_domain (u :: rest) with
      | none =>
        simp only []
        constructor
        · intro _
          exact classifyUrlList_eq_none_iff.mp hc
        · intro _
          rfl
      | some r0 =>
        constructor
        · intro hcl
          rcases classifyUrlList_some_shape hc with ⟨w, rfl⟩ | ⟨d0, w, rfl, _, _⟩
          · exact absurd hcl (by simp [convertyResult])
          · exact absurd hcl (by simp [concurrentResult])
        · intro hall
          rw [classifyUrlList_eq_none_iff.mpr hall] at hc
          exact Option.noConfusion hc

/-- Witness for C3 at concrete ads: an ad with no URL anywhere, an ad
whose only candidate is an ignored redirect, and the iff instantiated at
the latter. -/
theorem classify_unknown_characterisation_witness :
    classify_ad [] "tbshopp.com" = .ok unknownLowResult ∧
    classify_ad [("snapshot", PyVal.pdict [("link_url", .pstr "https://l.facebook.com/l.php?u=x")])]
      "tbshopp.com" =
      .ok ⟨"UNKNOWN", "medium", "Aucune URL commerciale identifiée",
        some "https://l.facebook.com/l.php?u=x", none⟩ := by
  constructor
  · exact classify_unknown_characterisation.1 [] "tbshopp.com" (by rfl)
  · exact classify_unknown_characterisation.2.1
      [("snapshot", PyVal.pdict [("link_url", .pstr "https://l.facebook.com/l.php?u=x")])]
      "tbshopp.com" "https://l.facebook.com/l.php?u=x" [] (by rfl) (by decide)

/-- C9: for every ad and owned domain, a successful classification has a
present competitor_domain if and only if it is CONCURRENT
(spec: COMPETITOR). -/
theorem competitor_domain_iff_concurrent
    (ad : List (String × PyVal)) (converty_domain : String)
    (r : ClassificationResult)
    (hr : classify_ad ad converty_domain = .ok r) :
    r.competitor_domain ≠ none ↔ r.classification = "CONCURRENT" := by
  obtain ⟨urls, _, rfl⟩ := classify_ad_ok_iff.mp hr
  unfold classifyFromUrls
  by_cases hne : urls.isEmpty = true
  · rw [hne]
    simp [unknownLowResult]
  · rw [Bool.not_eq_true] at hne
    rw [hne]
    cases hc : classifyUrlList converty_domain urls with
    | none => simp [unknownMediumResult]
    | some r0 =>
      rcases classifyUrlList_some_shape hc with ⟨u, rfl⟩ | ⟨d0, u, rfl, _, _⟩
      · simp [convertyResult]
      · simp [concurrentResult]

/-- Witness for C9 at a concrete ad with a competitor destination. -/
theorem competitor_domain_iff_concurrent_witness :
    (concurrentResult "rivalshop.io" "https://rivalshop.io/x").competitor_domain ≠ none ↔
      (concurrentResult "rivalshop.io" "https://rivalshop.io/x").classification = "CONCURRENT" :=
  competitor_domain_iff_concurrent
    [("snapshot", PyVal.pdict [("link_url", .pstr "https://rivalshop.io/x")])]
    "tbshopp.com" (concurrentResult "rivalshop.io" "https://rivalshop.io/x") (by rfl)

/-! Claim C4: host extraction. -/

theorem listStarts_take {p l : List Char} (h : listStarts p l = true) : l.take p.length = p := by
  induction p generalizing l with
  | nil => simp
  | cons a as ih =>
    cases l with
    | nil => simp [listStarts] at h
    | cons b bs =>
      simp only [listStarts, Bool.and_eq_true, beq_iff_eq] at h
      obtain ⟨rfl, h2⟩ := h
      simp [ih h2]

theorem removeWWW_eq_removeAllOcc (l : List Char) :
    removeWWW l = removeAllOcc ("www.".toList) l := by
  show removeWWW l = removeAllOcc ['w', 'w', 'w', '.'] l
  induction l using removeWWW.induct with
  | case1 t ih =>
    rw [removeWWW.eq_1, removeAllOcc]
    rw [if_pos ⟨(by decide : (['w', 'w', 'w', '.'] : List Char) ≠ []),
      (rfl : listStarts ['w', 'w', 'w', '.'] ('w' :: 'w' :: 'w' :: '.' :: t) = true)⟩]
    exact ih
  | case2 c t h ih =>
    have hls : listStarts ['w', 'w', 'w', '.'] (c :: t) = false := by
      by_contra hcon
      rw [Bool.not_eq_false] at hcon
      have htake := listStarts_take hcon
      have h4 : c :: List.take 3 t = ['w', 'w', 'w', '.'] := htake
      injection h4 with hc h3
      have htt := List.take_append_drop 3 t
      rw [h3] at htt
      exact h (t.drop 3) hc htt.symm
    rw [removeWWW.eq_2 c t h, removeAllOcc]
    simp [hls, ih]
  | case3 => simp [removeWWW.eq_3, removeAllOcc]

theorem takeWhile_ne_colon_of_not_contains {l : List Char}
    (h : l.contains ':' = false) : l.takeWhile (fun c => !(c == ':')) = l := by
  induction l with
  | nil => rfl
  | cons c t ih =>
    simp only [List.contains_cons, Bool.or_eq_false_iff] at h
    rw [List.takeWhile_cons]
    have hc : (!(c == ':')) = true := by
      have hb : (':' == c) = false := h.1
      simp only [Bool.not_eq_true', beq_eq_false_iff_ne]
      intro hh
      rw [hh] at hb
      simp at hb
    rw [hc]
    simp [ih h.2]

/-- C4, amended: host extraction defaults the scheme to http:// when no
http:// or https:// prefix is present, lowercases the netloc, removes
every leftmost non-overlapping occurrence of `www.` in one pass (not only
a leading one), strips everything from the first colon, and returns
absent when the remaining host is empty. -/
theorem extract_domain_matches_amended_spec (url : String) :
    extract_domain url = extract_domain_spec url := by
  unfold extract_domain extract_domain_spec
  simp only [removeWWW_eq_removeAllOcc, List.isEmpty_iff]
  generalize urlparseNetloc
    (if strStarts url "http://" || strStarts url "https://" then url else "http://" ++ url) = nl
  by_cases hnl : nl = []
  · simp [hnl]
  · rw [if_neg hnl, if_neg hnl]
    by_cases hcol : (removeAllOcc ("www.".toList) (nl.map Char.toLower)).contains ':' = true
    · rw [if_pos hcol]
    · rw [if_neg hcol, takeWhile_ne_colon_of_not_contains (by simpa using hcol)]

/-- Counterexample to C4 as stated: the source replaces every occurrence
of `www.`, not only a leading one, so an inner `www.` is removed from the
host instead of being left intact. -/
theorem extract_domain_strips_inner_www :
    extract_domain "http://shop.www.example.com" = some "shop.example.com" ∧
      some "shop.example.com" ≠ some "shop.www.example.com" := by
  constructor
  · rfl
  · decide

/-! Claim C7: confidence thresholds. -/

theorem calculate_confidence_eq_ite {p t : ℕ} (ht : t ≠ 0) :
    calculate_confidence p t =
      if (7 : ℚ)/10 ≤ (p : ℚ)/(t : ℚ) then "high"
      else if (3 : ℚ)/10 ≤ (p : ℚ)/(t : ℚ) then "medium"
      else "low" := by
  simp only [calculate_confidence]
  rw [if_neg ht]

theorem confLevel_calculate_confidence {p t : ℕ} (ht : t ≠ 0) :
    confLevel (calculate_confidence p t) =
      if (7 : ℚ)/10 ≤ (p : ℚ)/(t : ℚ) then 2
      else if (3 : ℚ)/10 ≤ (p : ℚ)/(t : ℚ) then 1
      else 0 := by
  rw [calculate_confidence_eq_ite ht]
  by_cases h7 : (7 : ℚ)/10 ≤ (p : ℚ)/(t : ℚ)
  · rw [if_pos h7, if_pos h7]
    rfl
  · rw [if_neg h7, if_neg h7]
    by_cases h3 : (3 : ℚ)/10 ≤ (p : ℚ)/(t : ℚ)
    · rw [if_pos h3, if_pos h3]
      rfl
    · rw [if_neg h3, if_neg h3]
      rfl

/-- C7: `calculate_confidence` returns low when total_ads is 0; for a
positive total it returns high iff the ratio is at least 7/10, medium iff
the ratio is in [3/10, 7/10), low iff the ratio is below 3/10; and it is
non-decreasing in the ratio. -/
theorem calculate_confidence_thresholds :
    (∀ p : ℕ, calculate_confidence p 0 = "low") ∧
    (∀ p t : ℕ, 0 < t →
      ((calculate_confidence p t = "high" ↔ (7 : ℚ)/10 ≤ (p : ℚ)/(t : ℚ)) ∧
       (calculate_confidence p t = "medium" ↔
         (3 : ℚ)/10 ≤ (p : ℚ)/(t : ℚ) ∧ (p : ℚ)/(t : ℚ) < 7/10) ∧
       (calculate_confidence p t = "low" ↔ (p : ℚ)/(t : ℚ) < 3/10))) ∧
    (∀ p1 t1 p2 t2 : ℕ, 0 < t1 → 0 < t2 →
      (p1 : ℚ)/(t1 : ℚ) ≤ (p2 : ℚ)/(t2 : ℚ) →
      confLevel (calculate_confidence p1 t1) ≤ confLevel (calculate_confidence p2 t2)) := by
  refine ⟨fun p => rfl, ?_, ?_⟩
  · intro p t ht
    rw [calculate_confidence_eq_ite (Nat.pos_iff_ne_zero.mp ht)]
    by_cases h7 : (7 : ℚ)/10 ≤ (p : ℚ)/(t : ℚ)
    · rw [if_pos h7]
      refine ⟨⟨fun _ => h7, fun _ => rfl⟩, ?_, ?_⟩
      · constructor
        · intro hh
          exact absurd hh (by decide)
        · intro hh
          linarith [hh.2]
      · constructor
        · intro hh
          exact absurd hh (by decide)
        · intro hh
          linarith
    · rw [if_neg h7]
      by_cases h3 : (3 : ℚ)/10 ≤ (p : ℚ)/(t : ℚ)
      · rw [if_pos h3]
        refine ⟨?_, ⟨fun _ => ⟨h3, by linarith [lt_of_not_le h7]⟩, fun _ => rfl⟩, ?_⟩
        · constructor
          · intro hh
            exact absurd hh (by decide)
          · intro hh
            exact absurd hh h7
        · constructor
          · intro hh
            exact absurd hh (by decide)
          · intro hh
            linarith
      · rw [if_neg h3]
        refine ⟨?_, ?_, ⟨fun _ => lt_of_not_le h3, fun _ => rfl⟩⟩
        · constructor
          · intro hh
            exact absurd hh (by decide)
          · intro hh
            exact absurd hh h7
        · constructor
          · intro hh
            exact absurd hh (by decide)
          · intro hh
            exact absurd hh.1 h3
  · intro p1 t1 p2 t2 h1 h2 hle
    rw [confLevel_calculate_confidence (Nat.pos_iff_ne_zero.mp h1),
      confLevel_calculate_confidence (Nat.pos_iff_ne_zero.mp h2)]
    by_cases h7 : (7 : ℚ)/10 ≤ (p1 : ℚ)/(t1 : ℚ)
    · rw [if_pos h7, if_pos (le_trans h7 hle)]
    · rw [if_neg h7]
      by_cases h3 : (3 : ℚ)/10 ≤ (p1 : ℚ)/(t1 : ℚ)
      · rw [if_pos h3]
        by_cases h7b : (7 : ℚ)/10 ≤ (p2 : ℚ)/(t2 : ℚ)
        · rw [if_pos h7b]
          omega
        · rw [if_neg h7b, if_pos (le_trans h3 hle)]
      · rw [if_neg h3]
        exact Nat.zero_le _

/-- Witness for C7 at the spec example: total 10 with page counts 7, 4
and 1, and the empty-total case. -/
theorem calculate_confidence_thresholds_witness :
    calculate_confidence 7 10 = "high" ∧ calculate_confidence 4 10 = "medium" ∧
    calculate_confidence 1 10 = "low" ∧ calculate_confidence 5 0 = "low" ∧
    confLevel (calculate_confidence 1 10) ≤ confLevel (calculate_confidence 7 10) := by
  refine ⟨?_, ?_, ?_, ?_, ?_⟩
  · exact (calculate_confidence_thresholds.2.1 7 10 (by norm_num)).1.mpr (by norm_num)
  · exact (calculate_confidence_thresholds.2.1 4 10 (by norm_num)).2.1.mpr (by norm_num)
  · exact (calculate_confidence_thresholds.2.1 1 10 (by norm_num)).2.2.mpr (by norm_num)
  · exact calculate_confidence_thresholds.1 5
  · exact calculate_confidence_thresholds.2.2 1 10 7 10 (by norm_num) (by norm_num) (by norm_num)

/-! Claim C8: aggregation and ranking of competitors. -/

theorem insertDesc_perm (x : String × ℕ) (l : List (String × ℕ)) :
    (insertDesc x l).Perm (x :: l) := by
  induction l with
  | nil => exact List.Perm.refl _
  | cons y t ih =>
    unfold insertDesc
    by_cases h : x.2 ≥ y.2
    · rw [if_pos h]
    · rw [if_neg h]
      exact (List.Perm.cons y ih).trans (List.Perm.swap x y t)

theorem mem_insertDesc {z x : String × ℕ} {l : List (String × ℕ)}
    (h : z ∈ insertDesc x l) : z = x ∨ z ∈ l := by
  have := (insertDesc_perm x l).mem_iff.mp h
  simpa using this

theorem insertDesc_sorted {x : String × ℕ} {l : List (String × ℕ)}
    (h : List.Pairwise (fun a b => b.2 ≤ a.2) l) :
    List.Pairwise (fun a b => b.2 ≤ a.2) (insertDesc x l) := by
  induction l with
  | nil => exact List.pairwise_singleton _ _
  | cons y t ih =>
    rw [List.pairwise_cons] at h
    unfold insertDesc
    by_cases hcmp : x.2 ≥ y.2
    · rw [if_pos hcmp]
      refine List.Pairwise.cons ?_ (List.Pairwise.cons h.1 h.2)
      intro z hz
      rcases List.mem_cons.mp hz with rfl | hz
      · exact hcmp
      · exact le_trans (h.1 z hz) hcmp
    · rw [if_neg hcmp]
      refine List.Pairwise.cons ?_ (ih h.2)
      intro z hz
      rcases mem_insertDesc hz with rfl | hz
      · exact le_of_lt (lt_of_not_le hcmp)
      · exact h.1 z hz

theorem sublist_insertDesc (x : String × ℕ) (l : List (String × ℕ)) :
    l.Sublist (insertDesc x l) := by
  induction l with
  | nil => exact List.nil_sublist _
  | cons y t ih =>
    unfold insertDesc
    by_cases h : x.2 ≥ y.2
    · rw [if_pos h]
      exact List.sublist_cons_self x (y :: t)
    · rw [if_neg h]
      exact List.Sublist.cons₂ y ih

theorem sublist_two_insertDesc {x b : String × ℕ} {l : List (String × ℕ)}
    (hb : b.2 = x.2) (hmem : b ∈ l) : List.Sublist [x, b] (insertDesc x l) := by
  induction l with
  | nil => exact absurd hmem (List.not_mem_nil b)
  | cons y t ih =>
    unfold insertDesc
    by_cases h : x.2 ≥ y.2
    · rw [if_pos h]
      exact List.Sublist.cons₂ x (List.singleton_sublist.mpr hmem)
    · rw [if_neg h]
      rcases List.mem_cons.mp hmem with rfl | hmem2
      · exact absurd (hb ▸ le_refl b.2) h
      · exact List.Sublist.cons y (ih hmem2)

theorem sortDesc_perm (l : List (String × ℕ)) : (sortDesc l).Perm l := by
  induction l with
  | nil => exact List.Perm.refl _
  | cons x t ih =>
    exact (insertDesc_perm x (sortDesc t)).trans (List.Perm.cons x ih)

theorem sortDesc_sorted (l : List (String × ℕ)) :
    List.Pairwise (fun a b => b.2 ≤ a.2) (sortDesc l) := by
  induction l with
  | nil => exact List.Pairwise.nil
  | cons x t ih => exact insertDesc_sorted ih

theorem sortDesc_stable {a b : String × ℕ} {l : List (String × ℕ)}
    (hsub : List.Sublist [a, b] l) (hab : a.2 = b.2) :
    List.Sublist [a, b] (sortDesc l) := by
  induction l with
  | nil => exact absurd hsub (by simp)
  | cons x t ih =>
    cases hsub with
    | cons _ h =>
      exact (ih h).trans (sublist_insertDesc x (sortDesc t))
    | cons₂ _ h =>
      have hbmem : b ∈ sortDesc t :=
        (sortDesc_perm t).mem_iff.mpr (List.singleton_sublist.mp h)
      exact sublist_two_insertDesc hab.symm hbmem

theorem countOf_upsert (m : List (String × ℕ)) (d : String) (c : ℕ) (x : String) :
    countOf (upsert m d c) x = countOf m x + (if d = x then c else 0) := by
  induction m with
  | nil => simp [upsert, countOf]
  | cons e t ih =>
    obtain ⟨d0, c0⟩ := e
    unfold upsert
    by_cases h : d0 = d
    · rw [if_pos h]
      subst h
      simp only [countOf]
      by_cases hx : d0 = x
      · simp only [if_pos hx]
        omega
      · simp only [if_neg hx]
        omega
    · rw [if_neg h]
      simp only [countOf, ih]
      omega

theorem keys_upsert {m : List (String × ℕ)} {d : String} {c : ℕ} {x : String} :
    x ∈ (upsert m d c).map Prod.fst ↔ x ∈ m.map Prod.fst ∨ x = d := by
  induction m with
  | nil => simp [upsert]
  | cons e t ih =>
    obtain ⟨d0, c0⟩ := e
    unfold upsert
    by_cases h : d0 = d
    · rw [if_pos h]
      subst h
      simp
      tauto
    · rw [if_neg h]
      simp [ih]
      tauto

theorem keysNodup_upsert {m : List (String × ℕ)} {d : String} {c : ℕ}
    (h : (m.map Prod.fst).Nodup) : ((upsert m d c).map Prod.fst).Nodup := by
  induction m with
  | nil => simp [upsert]
  | cons e t ih =>
    obtain ⟨d0, c0⟩ := e
    simp only [List.map_cons, List.nodup_cons] at h
    unfold upsert
    by_cases hd : d0 = d
    · rw [if_pos hd]
      simp only [List.map_cons, List.nodup_cons]
      exact h
    · rw [if_neg hd]
      simp only [List.map_cons, List.nodup_cons]
      constructor
      · intro hmem
        rcases keys_upsert.mp hmem with hmem2 | rfl
        · exact h.1 hmem2
        · exact hd rfl
      · exact ih h.2

theorem countOf_eq_zero {m : List (String × ℕ)} {d : String}
    (h : d ∉ m.map Prod.fst) : countOf m d = 0 := by
  induction m with
  | nil => rfl
  | cons e t ih =>
    obtain ⟨k, v⟩ := e
    simp only [List.map_cons, List.mem_cons, not_or] at h
    simp only [countOf]
    rw [if_neg (fun hh => h.1 hh.symm)]
    simpa using ih h.2

theorem countOf_eq_of_mem {m : List (String × ℕ)} {d : String} {c : ℕ}
    (hnd : (m.map Prod.fst).Nodup) (hmem : (d, c) ∈ m) : countOf m d = c := by
  induction m with
  | nil => exact absurd hmem (List.not_mem_nil _)
  | cons e t ih =>
    obtain ⟨d0, c0⟩ := e
    rw [List.map_cons, List.nodup_cons] at hnd
    rcases List.mem_cons.mp hmem with heq | hmem2
    · injection heq with h1 h2
      subst h1
      subst h2
      have h0 : countOf t d = 0 := countOf_eq_zero hnd.1
      simp [countOf, h0]
    · have hdne : d0 ≠ d := by
        intro hh
        subst hh
        exact hnd.1 (List.mem_map.mpr ⟨(d0, c), hmem2, rfl⟩)
      simp only [countOf, if_neg hdne]
      simpa using ih hnd.2 hmem2

theorem countOf_eq_filter_sum (m : List (String × ℕ)) (x : String) :
    countOf m x = ((m.filter (fun e => e.1 = x)).map (fun e => e.2)).sum := by
  induction m with
  | nil => rfl
  | cons e t ih =>
    obtain ⟨k, v⟩ := e
    by_cases h : k = x
    · simp [countOf, List.filter_cons, h, ih]
    · simp [countOf, List.filter_cons, h, ih]

theorem countOf_foldl_upsert (comps acc : List (String × ℕ)) (x : String) :
    countOf (comps.foldl (fun m e => upsert m e.1 e.2) acc) x =
      countOf acc x + countOf comps x := by
  induction comps generalizing acc with
  | nil => simp [countOf]
  | cons e t ih =>
    obtain ⟨d0, c0⟩ := e
    simp only [List.foldl_cons]
    rw [ih, countOf_upsert]
    simp only [countOf]
    omega

theorem keys_foldl_upsert (comps acc : List (String × ℕ)) (x : String) :
    (x ∈ (comps.foldl (fun m e => upsert m e.1 e.2) acc).map Prod.fst) ↔
      (x ∈ acc.map Prod.fst ∨ x ∈ comps.map Prod.fst) := by
  induction comps generalizing acc with
  | nil => simp
  | cons e t ih =>
    simp only [List.foldl_cons, List.map_cons, List.mem_cons]
    rw [ih, keys_upsert]
    tauto

theorem keysNodup_foldl_upsert (comps : List (String × ℕ)) {acc : List (String × ℕ)}
    (h : (acc.map Prod.fst).Nodup) :
    ((comps.foldl (fun m e => upsert m e.1 e.2) acc).map Prod.fst).Nodup := by
  induction comps generalizing acc with
  | nil => exact h
  | cons e t ih => exact ih (keysNodup_upsert h)

theorem countOf_allCompetitors_aux (pas : List PageAnalysis)
    (acc : List (String × ℕ)) (x : String) :
    countOf (pas.foldl
      (fun acc2 pa => pa.competitors.foldl (fun m e => upsert m e.1 e.2) acc2) acc) x =
      countOf acc x + totalCompetitorCount pas x := by
  induction pas generalizing acc with
  | nil => simp [totalCompetitorCount]
  | cons pa t ih =>
    simp only [List.foldl_cons]
    rw [ih, countOf_foldl_upsert]
    have hstep : totalCompetitorCount (pa :: t) x =
        countOf pa.competitors x + totalCompetitorCount t x := by
      simp only [totalCompetitorCount, List.map_cons, List.sum_cons]
      rw [countOf_eq_filter_sum]
    rw [hstep]
    omega

theorem keys_allCompetitors_aux (pas : List PageAnalysis)
    (acc : List (String × ℕ)) (x : String) :
    (x ∈ (pas.foldl
      (fun acc2 pa => pa.competitors.foldl (fun m e => upsert m e.1 e.2) acc2) acc).map Prod.fst) ↔
      (x ∈ acc.map Prod.fst ∨ ∃ pa ∈ pas, x ∈ pa.competitors.map Prod.fst) := by
  induction pas generalizing acc with
  | nil => simp
  | cons pa t ih =>
    simp only [List.foldl_cons, List.mem_cons]
    rw [ih, keys_foldl_upsert]
    constructor
    · rintro ((h | h) | ⟨pa2, hpa2, h⟩)
      · exact Or.inl h
      · exact Or.inr ⟨pa, Or.inl rfl, h⟩
      · exact Or.inr ⟨pa2, Or.inr hpa2, h⟩
    · rintro (h | ⟨pa2, (rfl | hpa2), h⟩)
      · exact Or.inl (Or.inl h)
      · exact Or.inl (Or.inr h)
      · exact Or.inr ⟨pa2, hpa2, h⟩

theorem keysNodup_allCompetitors (pas : List PageAnalysis) :
    ((allCompetitorsDict pas).map Prod.fst).Nodup := by
  unfold allCompetitorsDict
  suffices haux : ∀ acc : List (String × ℕ), (acc.map Prod.fst).Nodup →
      ((pas.foldl
        (fun acc2 pa => pa.competitors.foldl (fun m e => upsert m e.1 e.2) acc2) acc).map
        Prod.fst).Nodup by
    exact haux [] (by simp)
  induction pas with
  | nil => exact fun acc h => h
  | cons pa t ih =>
    intro acc h
    simp only [List.foldl_cons]
    exact ih _ (keysNodup_foldl_upsert pa.competitors h)

/-- C8: for every list of page analyses, the report top_competitors list
has at most 20 entries; it is a truncation of the aggregate list, which is
a permutation of the merged per-domain histogram, sorted descending by
aggregate count; every aggregate entry carries the sum of its domain
counts across all pages; the aggregate mentions exactly the domains of the
pages; and ties keep the stable insertion order of the histogram. -/
theorem top_competitors_spec (page_analyses : List PageAnalysis) :
    (top_competitors page_analyses).length ≤ 20 ∧
    List.Pairwise (fun a b : String × ℕ => b.2 ≤ a.2) (top_competitors page_analyses) ∧
    (aggregate_competitors page_analyses).Perm (allCompetitorsDict page_analyses) ∧
    (∀ e ∈ aggregate_competitors page_analyses,
      e.2 = totalCompetitorCount page_analyses e.1) ∧
    (∀ d : String, d ∈ (allCompetitorsDict page_analyses).map Prod.fst ↔
      ∃ pa ∈ page_analyses, d ∈ pa.competitors.map Prod.fst) ∧
    (∀ a b : String × ℕ, List.Sublist [a, b] (allCompetitorsDict page_analyses) →
      a.2 = b.2 → List.Sublist [a, b] (aggregate_competitors page_analyses)) := by
  refine ⟨?_, ?_, sortDesc_perm _, ?_, ?_, ?_⟩
  · exact List.length_take_le 20 _
  · exact List.Pairwise.sublist (List.take_sublist 20 _) (sortDesc_sorted _)
  · intro e he
    obtain ⟨d, c⟩ := e
    have he2 : (d, c) ∈ allCompetitorsDict page_analyses :=
      (sortDesc_perm (allCompetitorsDict page_analyses)).mem_iff.mp he
    have h1 := countOf_eq_of_mem (keysNodup_allCompetitors page_analyses) he2
    have h2 := countOf_allCompetitors_aux page_analyses [] d
    unfold allCompetitorsDict at h1
    simp only [countOf] at h2
    show c = totalCompetitorCount page_analyses d
    omega
  · intro d
    have h := keys_allCompetitors_aux page_analyses [] d
    unfold allCompetitorsDict
    simpa using h
  · intro a b hsub hab
    exact sortDesc_stable hsub hab

/-- Witness for C8 at a concrete pair of pages, discharging the
membership, sublist and tie hypotheses at explicit entries. -/
theorem top_competitors_spec_witness :
    (top_competitors [samplePageA, samplePageB]).length ≤ 20 ∧
    (("y.com", 2) : String × ℕ).2 = totalCompetitorCount [samplePageA, samplePageB] "y.com" ∧
    List.Sublist [(("y.com", 2) : String × ℕ), ("z.com", 2)]
      (aggregate_competitors [samplePageA, samplePageB]) := by
  refine ⟨(top_competitors_spec [samplePageA, samplePageB]).1, ?_, ?_⟩
  · exact (top_competitors_spec [samplePageA, samplePageB]).2.2.2.1 ("y.com", 2) (by decide)
  · exact (top_competitors_spec [samplePageA, samplePageB]).2.2.2.2.2 ("y.com", 2) ("z.com", 2)
      (List.Sublist.cons ("x.com", 5) (List.Sublist.refl [("y.com", 2), ("z.com", 2)])) rfl

/-! Claim C10: per-page counting invariants. -/

theorem string_mk_ne_empty {l : List Char} (hl : l ≠ []) : String.mk l ≠ "" := by
  intro hcon
  exact hl (by simpa using congrArg String.data hcon)

theorem opt_guard_ne {l : List Char} {d : String}
    (h : (if l.isEmpty = true then none else some (String.mk l)) = some d) : d ≠ "" := by
  split at h
  next => exact Option.noConfusion h
  next hne =>
    have hd := Option.some.inj h
    rw [← hd]
    exact string_mk_ne_empty (fun hh => hne (by simp [hh]))

theorem extract_domain_ne_empty {u d : String} (h : extract_domain u = some d) :
    d ≠ "" := by
  simp only [extract_domain] at h
  split at h
  · split at h
    next => exact Option.noConfusion h
    next => exact opt_guard_ne h
  · split at h
    next => exact Option.noConfusion h
    next => exact opt_guard_ne h

theorem sumCounts_upsert (m : List (String × ℕ)) (d : String) (c : ℕ) :
    sumCounts (upsert m d c) = sumCounts m + c := by
  induction m with
  | nil => simp [upsert, sumCounts]
  | cons e t ih =>
    obtain ⟨d0, c0⟩ := e
    unfold upsert
    by_cases h : d0 = d
    · rw [if_pos h]
      simp [sumCounts]
      omega
    · rw [if_neg h]
      simp only [sumCounts, List.map_cons, List.sum_cons] at ih ⊢
      omega

theorem classify_ad_result_cases {ad : List (String × PyVal)} {dom : String}
    {r : ClassificationResult} (h : classify_ad ad dom = .ok r) :
    (r.classification = "UNKNOWN" ∧ r.competitor_domain = none) ∨
    (r.classification = "CONVERTY" ∧ r.competitor_domain = none) ∨
    (∃ d u, r = concurrentResult d u ∧ extract_domain u = some d) := by
  obtain ⟨urls, _, rfl⟩ := classify_ad_ok_iff.mp h
  unfold classifyFromUrls
  by_cases hne : urls.isEmpty = true
  · rw [hne]
    exact Or.inl ⟨rfl, rfl⟩
  · rw [Bool.not_eq_true] at hne
    rw [hne]
    cases hc : classifyUrlList dom urls with
    | none => exact Or.inl ⟨rfl, rfl⟩
    | some r0 =>
      rcases classifyUrlList_some_shape hc with ⟨u, rfl⟩ | ⟨d0, u, rfl, hd, _⟩
      · exact Or.inr (Or.inl ⟨rfl, rfl⟩)
      · exact Or.inr (Or.inr ⟨d0, u, rfl, hd⟩)

theorem analyzePageStep_ok {dom : String} {st st2 : PageLoopState}
    {ad : List (String × PyVal)}
    (h : analyzePageStep dom st ad = .ok st2) :
    st2.classified_ads.length = st.classified_ads.length + 1 ∧
      (pageInv st → pageInv st2) := by
  unfold analyzePageStep at h
  cases hc : classify_ad ad dom with
  | error e =>
    rw [hc] at h
    exact Except.noConfusion h
  | ok c =>
    rw [hc, except_bind_ok] at h
    rcases classify_ad_result_cases hc with ⟨hcl, hcd⟩ | ⟨hcl, hcd⟩ | ⟨d, u, rfl, hd⟩
    · rw [if_neg (show ¬(c.classification = "CONVERTY") by rw [hcl]; decide),
        if_neg (show ¬(c.classification = "CONCURRENT") by rw [hcl]; decide)] at h
      obtain rfl := Except.ok.inj h
      refine ⟨by simp, ?_⟩
      rintro ⟨h1, h2⟩
      refine ⟨?_, h2⟩
      simp only [List.length_append, List.length_cons, List.length_nil]
      omega
    · rw [if_pos hcl] at h
      obtain rfl := Except.ok.inj h
      refine ⟨by simp, ?_⟩
      rintro ⟨h1, h2⟩
      refine ⟨?_, h2⟩
      simp only [List.length_append, List.length_cons, List.length_nil]
      omega
    · have hcl2 : (concurrentResult d u).classification = "CONCURRENT" := rfl
      rw [if_neg (show ¬((concurrentResult d u).classification = "CONVERTY") by rw [hcl2]; decide),
        if_pos hcl2] at h
      obtain rfl := Except.ok.inj h
      refine ⟨by simp, ?_⟩
      rintro ⟨h1, h2⟩
      constructor
      · simp only [List.length_append, List.length_cons, List.length_nil]
        omega
      · have hne2 : d.isEmpty = false := by
          have := extract_domain_ne_empty hd
          cases hde : d.isEmpty with
          | false => rfl
          | true => exact absurd ((String.isEmpty_iff d).mp hde) this
        show sumCounts (match (concurrentResult d u).competitor_domain with
          | some d2 => if d2.isEmpty = true then st.competitors else upsert st.competitors d2 1
          | none => st.competitors) = st.concurrent_count + 1
        show sumCounts (if d.isEmpty = true then st.competitors else upsert st.competitors d 1) =
          st.concurrent_count + 1
        rw [hne2]
        show sumCounts (upsert st.competitors d 1) = st.concurrent_count + 1
        rw [sumCounts_upsert, h2]

theorem sumCounts_perm {m m2 : List (String × ℕ)} (h : m.Perm m2) :
    sumCounts m = sumCounts m2 := by
  unfold sumCounts
  exact (h.map (fun e => e.2)).sum_eq

theorem foldlM_analyzePage {dom : String} (ads : List (List (String × PyVal)))
    (st st2 : PageLoopState)
    (h : List.foldlM (analyzePageStep dom) st ads = .ok st2) :
    st2.classified_ads.length = st.classified_ads.length + ads.length ∧
      (pageInv st → pageInv st2) := by
  induction ads generalizing st with
  | nil =>
    simp only [List.foldlM_nil] at h
    obtain rfl := Except.ok.inj h
    exact ⟨by simp, fun hh => hh⟩
  | cons ad t ih =>
    simp only [List.foldlM_cons] at h
    cases hs : analyzePageStep dom st ad with
    | error e =>
      rw [hs] at h
      exact Except.noConfusion h
    | ok st1 =>
      rw [hs, except_bind_ok] at h
      obtain ⟨hl1, hi1⟩ := analyzePageStep_ok hs
      obtain ⟨hl2, hi2⟩ := ih st1 h
      refine ⟨by rw [hl2, hl1]; simp; omega, fun hh => hi2 (hi1 hh)⟩

/-- C10: a successful page analysis partitions the fetched ads exactly:
converty + concurrent + unknown = total = number of classified records =
number of ads fetched, and the competitor list counts sum to the
concurrent count. -/
theorem analyze_page_counts (page : List (String × PyVal)) (converty_domain : String)
    (all_page_ads : List (List (String × PyVal))) (pa : PageAnalysis)
    (h : analyze_page page converty_domain all_page_ads = .ok pa) :
    pa.converty_ads + pa.concurrent_ads + pa.unknown_ads = pa.total_ads ∧
    pa.total_ads = pa.classified_ads.length ∧
    pa.total_ads = all_page_ads.length ∧
    sumCounts pa.competitors = pa.concurrent_ads := by
  unfold analyze_page at h
  cases hid : dictGet page "page_id" with
  | none =>
    rw [hid] at h
    exact Except.noConfusion h
  | some pid =>
    rw [hid] at h
    cases hnm : dictGet page "page_name" with
    | none =>
      rw [hnm] at h
      exact Except.noConfusion h
    | some pnm =>
      rw [hnm] at h
      simp only [except_bind_ok] at h
      cases hf : List.foldlM (analyzePageStep converty_domain)
          (⟨[], 0, 0, 0, []⟩ : PageLoopState) all_page_ads with
      | error e =>
        rw [hf] at h
        exact Except.noConfusion h
      | ok st =>
        rw [hf, except_bind_ok] at h
        obtain rfl := Except.ok.inj h
        obtain ⟨hlen, hinv⟩ := foldlM_analyzePage all_page_ads _ _ hf
        obtain ⟨h1, h2⟩ := hinv ⟨by simp [sumCounts], by simp [sumCounts]⟩
        simp only [List.length_nil, Nat.zero_add] at hlen
        refine ⟨h1, rfl, hlen, ?_⟩
    
        show sumCounts (sortDesc st.competitors) = st.concurrent_count
        rw [sumCounts_perm (sortDesc_perm st.competitors), h2]

/-- Witness for C10 at a concrete page with no fetched ads. -/
theorem analyze_page_counts_witness :
    (0 : ℕ) + 0 + 0 = 0 ∧ (0 : ℕ) = ([] : List ClassifiedAd).length ∧
      (0 : ℕ) = ([] : List (List (String × PyVal))).length ∧ sumCounts [] = 0 := by
  have h := analyze_page_counts [("page_id", .pstr "p1"), ("page_name", .pstr "P")]
    "d.com" []
    ⟨.pstr "p1", .pstr "P", "d.com", 0, 0, 0, 0, 0, 0, [], []⟩ (by rfl)
  exact h


/-! Claim C5: exception behaviour of the classifier. -/

theorem strOrFalsy_truthy_pstr {v : PyVal} (h1 : strOrFalsy v = true)
    (h2 : truthy v = true) : ∃ s, v = PyVal.pstr s := by
  cases v with
  | pstr s => exact ⟨s, rfl⟩
  | pnone => exact absurd h2 (by simp [truthy])
  | pint n => exact absurd h1 (by simp [strOrFalsy, h2])
  | plist l => exact absurd h1 (by simp [strOrFalsy, h2])
  | pdict d => exact absurd h1 (by simp [strOrFalsy, h2])

theorem exists_map_pstr {l : List PyVal} (h : ∀ v ∈ l, ∃ s, v = PyVal.pstr s) :
    ∃ strs : List String, l = strs.map PyVal.pstr := by
  induction l with
  | nil => exact ⟨[], rfl⟩
  | cons v t ih =>
    obtain ⟨s, rfl⟩ := h v (by simp)
    obtain ⟨strs, rfl⟩ := ih (fun w hw => h w (by simp [hw]))
    exact ⟨s :: strs, rfl⟩

theorem findallIfText_ok {v : PyVal} (h : strOrFalsy v = true) :
    ∃ us, findallIfText v = .ok us := by
  unfold findallIfText
  by_cases ht : truthy v = true
  · rw [if_pos ht]
    obtain ⟨s, rfl⟩ := strOrFalsy_truthy_pstr h ht
    exact ⟨findallUrls s, rfl⟩
  · rw [if_neg ht]
    exact ⟨[], rfl⟩

theorem collectCardUrls_ok {cs : List PyVal}
    (h : cs.all (fun c => match c with
      | .pdict card => strOrFalsy (pyGet card "link_url" .pnone)
      | _ => false) = true) :
    ∃ vs, collectCardUrls cs = .ok vs ∧ ∀ v ∈ vs, ∃ s, v = PyVal.pstr s := by
  induction cs with
  | nil => exact ⟨[], rfl, by simp⟩
  | cons c t ih =>
    rw [List.all_cons, Bool.and_eq_true] at h
    obtain ⟨vs, hvs, hstr⟩ := ih h.2
    cases c with
    | pdict card =>
      have hsf : strOrFalsy (pyGet card "link_url" .pnone) = true := h.1
      by_cases htr : truthy (pyGet card "link_url" .pnone) = true
      · obtain ⟨s, hs⟩ := strOrFalsy_truthy_pstr hsf htr
        refine ⟨PyVal.pstr s :: vs, ?_, ?_⟩
        · show (do
            let rest ← collectCardUrls t
            let cu := pyGet card "link_url" .pnone
            pure (if truthy cu then cu :: rest else rest) :
              Except String (List PyVal)) = .ok (PyVal.pstr s :: vs)
          rw [hvs, except_bind_ok]
          show pure (if truthy (pyGet card "link_url" PyVal.pnone) = true
            then pyGet card "link_url" PyVal.pnone :: vs else vs) = Except.ok (PyVal.pstr s :: vs)
          rw [if_pos htr, hs]
          rfl
        · intro v hv2
          rcases List.mem_cons.mp hv2 with rfl | hv3
          · exact ⟨s, rfl⟩
          · exact hstr v hv3
      · refine ⟨vs, ?_, hstr⟩
        show (do
          let rest ← collectCardUrls t
          let cu := pyGet card "link_url" .pnone
          pure (if truthy cu then cu :: rest else rest) :
            Except String (List PyVal)) = .ok vs
        rw [hvs, except_bind_ok]
        show pure (if truthy (pyGet card "link_url" PyVal.pnone) = true
          then pyGet card "link_url" PyVal.pnone :: vs else vs) = Except.ok vs
        rw [if_neg htr]
        rfl
    | pnone => exact Bool.noConfusion h.1
    | pint n => exact Bool.noConfusion h.1
    | pstr s => exact Bool.noConfusion h.1
    | plist l2 => exact Bool.noConfusion h.1

theorem iterateCards_ok {cards : PyVal} (h : cardsWellTyped cards = true) :
    ∃ vs, iterateCards cards = .ok vs ∧ ∀ v ∈ vs, ∃ s, v = PyVal.pstr s := by
  cases cards with
  | plist cs => exact collectCardUrls_ok h
  | pstr s =>
    refine ⟨[], ?_, by simp⟩
    show (if s.isEmpty = true then Except.ok [] else Except.error "AttributeError") = Except.ok []
    rw [if_pos (by exact h)]
  | pdict d =>
    refine ⟨[], ?_, by simp⟩
    show (if d.isEmpty = true then Except.ok [] else Except.error "AttributeError") = Except.ok []
    rw [if_pos (by exact h)]
  | pnone => exact Bool.noConfusion h
  | pint n => exact Bool.noConfusion h

theorem dedupCleanPy_ok (strs : List String) :
    ∀ seen, ∃ us, dedupCleanPy seen (strs.map PyVal.pstr) = .ok us := by
  induction strs with
  | nil => exact fun seen => ⟨[], rfl⟩
  | cons u t ih =>
    intro seen
    show ∃ us, dedupCleanPy seen (PyVal.pstr u :: t.map PyVal.pstr) = .ok us
    by_cases hc : (!(cleanUrl u).isEmpty && !seen.contains (cleanUrl u)) = true
    · obtain ⟨us, hus⟩ := ih (cleanUrl u :: seen)
      refine ⟨cleanUrl u :: us, ?_⟩
      show (let u2 := cleanUrl u
        if !u2.isEmpty && !seen.contains u2 then do
          let rest ← dedupCleanPy (u2 :: seen) (t.map PyVal.pstr)
          pure (u2 :: rest)
        else dedupCleanPy seen (t.map PyVal.pstr)) = _
      rw [if_pos hc, hus, except_bind_ok]
      rfl
    · obtain ⟨us, hus⟩ := ih seen
      refine ⟨us, ?_⟩
      show (let u2 := cleanUrl u
        if !u2.isEmpty && !seen.contains u2 then do
          let rest ← dedupCleanPy (u2 :: seen) (t.map PyVal.pstr)
          pure (u2 :: rest)
        else dedupCleanPy seen (t.map PyVal.pstr)) = _
      rw [if_neg hc, hus]

theorem except_pure_eq {α : Type} (a : α) : (pure a : Except String α) = Except.ok a := rfl

theorem extract_urls_ok_of_well_typed {ad : List (String × PyVal)}
    (h : adWellTyped ad = true) :
    ∃ us, extract_urls_from_ad ad = .ok us := by
  unfold adWellTyped at h
  cases hsnap : pyGet ad "snapshot" (.pdict []) with
  | pdict snap =>
    rw [hsnap] at h
    rw [Bool.and_eq_true, Bool.and_eq_true, Bool.and_eq_true] at h
    obtain ⟨⟨⟨h1, h2⟩, h3⟩, h4⟩ := h
    obtain ⟨cvs, hcvs, hcstr⟩ := iterateCards_ok h2
    obtain ⟨cap, hcap⟩ := findallIfText_ok h3
    obtain ⟨bod, hbod⟩ := findallIfText_ok h4
    have hcollect : collectRawPy ad = (do
        let cardPart ← iterateCards (pyGet snap "cards" (PyVal.plist []))
        let capPart ← findallIfText (pyGet snap "caption" (PyVal.pstr ""))
        let bodPart ← findallIfText (bodyTextOf (pyGet snap "body" (PyVal.pdict [])))
        pure ((if truthy (pyGet snap "link_url" PyVal.pnone) = true
            then [pyGet snap "link_url" PyVal.pnone] else []) ++
          cardPart ++ capPart.map PyVal.pstr ++ bodPart.map PyVal.pstr)) := by
      unfold collectRawPy
      rw [hsnap]
    unfold extract_urls_from_ad
    rw [hcollect]
    simp only [hcvs, hcap, hbod, except_bind_ok, except_pure_eq]
    have hlink : ∀ v ∈ (if truthy (pyGet snap "link_url" PyVal.pnone) = true
        then [pyGet snap "link_url" PyVal.pnone] else []), ∃ s2, v = PyVal.pstr s2 := by
      by_cases hl : truthy (pyGet snap "link_url" PyVal.pnone) = true
      · rw [if_pos hl]
        intro v hv
        obtain ⟨s, hs⟩ := strOrFalsy_truthy_pstr h1 hl
        exact ⟨s, by simpa [hs] using hv⟩
      · rw [if_neg hl]
        intro v hv
        exact absurd hv (List.not_mem_nil v)
    have hall : ∀ v ∈ ((if truthy (pyGet snap "link_url" PyVal.pnone) = true
        then [pyGet snap "link_url" PyVal.pnone] else []) ++ cvs ++
        cap.map PyVal.pstr ++ bod.map PyVal.pstr), ∃ s2, v = PyVal.pstr s2 := by
      intro v hv
      simp only [List.append_assoc, List.mem_append] at hv
      rcases hv with hv | hv | hv | hv
      · exact hlink v hv
      · exact hcstr v hv
      · obtain ⟨s2, _, rfl⟩ := List.mem_map.mp hv
        exact ⟨s2, rfl⟩
      · obtain ⟨s2, _, rfl⟩ := List.mem_map.mp hv
        exact ⟨s2, rfl⟩
    obtain ⟨strs, hstrs⟩ := exists_map_pstr hall
    rw [hstrs]
    exact dedupCleanPy_ok strs []
  | pnone =>
    rw [hsnap] at h
    exact Bool.noConfusion h
  | pint n =>
    rw [hsnap] at h
    exact Bool.noConfusion h
  | pstr s =>
    rw [hsnap] at h
    exact Bool.noConfusion h
  | plist l =>
    rw [hsnap] at h
    exact Bool.noConfusion h

/-- C5, amended: `classify_ad` terminates normally (raises no exception)
for every ad whose nested fields are well-typed where the extraction
accesses them: snapshot a dict when present, cards a list of card dicts
(or empty), the link_urls and caption strings or falsy, and a structured
body carrying a string or falsy text; malformed URLs are still recovered
locally and treated as no host. -/
theorem classify_ad_total_on_well_typed
    (ad : List (String × PyVal)) (converty_domain : String)
    (h : adWellTyped ad = true) :
    ∃ r, classify_ad ad converty_domain = .ok r := by
  obtain ⟨us, hus⟩ := extract_urls_ok_of_well_typed h
  exact ⟨classifyFromUrls converty_domain us, classify_ad_ok_iff.mpr ⟨us, hus, rfl⟩⟩

/-- Counterexample to C5 as stated: an ad whose snapshot field is a
string (a wrongly-typed nested field) makes `classify_ad` raise
AttributeError at the `snapshot.get` call instead of returning a result. -/
theorem classify_ad_raises_on_bad_snapshot :
    classify_ad [("snapshot", PyVal.pstr "oops")] "d.com" = .error "AttributeError" := rfl

/-- Witness for the amended C5 at a concrete well-typed ad. -/
theorem classify_ad_total_on_well_typed_witness :
    ∃ r, classify_ad sampleSelfAd "tbshopp.com" = .ok r :=
  classify_ad_total_on_well_typed sampleSelfAd "tbshopp.com" (by decide)


/-! Claim C6: URL extraction matches the spec description. -/


theorem dedupCleanPy_eval (strs : List String) :
    ∀ seen, dedupCleanPy seen (strs.map PyVal.pstr) =
      .ok (dedupSeen seen (strs.map cleanUrl)) := by
  induction strs with
  | nil => intro seen; rfl
  | cons u t ih =>
    intro seen
    show (let u2 := cleanUrl u
      if !u2.isEmpty && !seen.contains u2 then do
        let rest ← dedupCleanPy (u2 :: seen) (t.map PyVal.pstr)
        pure (u2 :: rest)
      else dedupCleanPy seen (t.map PyVal.pstr)) = _
    simp only [List.map_cons, dedupSeen]
    by_cases hc : (!(cleanUrl u).isEmpty && !seen.contains (cleanUrl u)) = true
    · rw [if_pos hc, if_pos hc, ih (cleanUrl u :: seen), except_bind_ok]
      rfl
    · rw [if_neg hc, if_neg hc, ih seen]

theorem dedupCleanPy_ok_strings :
    ∀ (l : List PyVal) (seen us : List String), dedupCleanPy seen l = .ok us →
      ∃ strs : List String, l = strs.map PyVal.pstr := by
  intro l
  induction l with
  | nil => exact fun seen us _ => ⟨[], rfl⟩
  | cons v t ih =>
    intro seen us h
    cases v with
    | pstr u =>
      by_cases hc : (!(cleanUrl u).isEmpty && !seen.contains (cleanUrl u)) = true
      · have h2 : (do
            let rest ← dedupCleanPy (cleanUrl u :: seen) t
            pure (cleanUrl u :: rest) : Except String (List String)) = .ok us := by
          rw [show dedupCleanPy seen (PyVal.pstr u :: t) = (let u2 := cleanUrl u
            if !u2.isEmpty && !seen.contains u2 then do
              let rest ← dedupCleanPy (u2 :: seen) t
              pure (u2 :: rest)
            else dedupCleanPy seen t) from rfl, if_pos hc] at h
          exact h
        cases hrec : dedupCleanPy (cleanUrl u :: seen) t with
        | error e =>
          rw [hrec] at h2
          exact Except.noConfusion h2
        | ok us2 =>
          obtain ⟨strs, rfl⟩ := ih _ _ hrec
          exact ⟨u :: strs, rfl⟩
      · have h2 : dedupCleanPy seen t = .ok us := by
          rw [show dedupCleanPy seen (PyVal.pstr u :: t) = (let u2 := cleanUrl u
            if !u2.isEmpty && !seen.contains u2 then do
              let rest ← dedupCleanPy (u2 :: seen) t
              pure (u2 :: rest)
            else dedupCleanPy seen t) from rfl, if_neg hc] at h
          exact h
        obtain ⟨strs, rfl⟩ := ih _ _ h2
        exact ⟨u :: strs, rfl⟩
    | pnone => exact Except.noConfusion h
    | pint n => exact Except.noConfusion h
    | plist l2 => exact Except.noConfusion h
    | pdict d => exact Except.noConfusion h


theorem mem_specDedup {x : String} {l : List String} (h : x ∈ specDedup l) : x ∈ l := by
  induction l using specDedup.induct with
  | case1 => exact absurd h (by simp [specDedup])
  | case2 rest ih =>
    rw [show specDedup ("" :: rest) = specDedup rest from by rw [specDedup]; simp] at h
    exact List.mem_cons_of_mem _ (ih h)
  | case3 url rest hne ih =>
    rw [show specDedup (url :: rest) =
        url :: specDedup (rest.filter (fun v => v ≠ url)) from by
      rw [specDedup]
      simp [hne]] at h
    rcases List.mem_cons.mp h with rfl | h2
    · exact List.mem_cons_self _ _
    · exact List.mem_cons_of_mem _ (List.mem_of_mem_filter (ih h2))

theorem specDedup_nodup (l : List String) : (specDedup l).Nodup := by
  induction l using specDedup.induct with
  | case1 => simp [specDedup]
  | case2 rest ih =>
    rw [show specDedup ("" :: rest) = specDedup rest from by rw [specDedup]; simp]
    exact ih
  | case3 url rest hne ih =>
    rw [show specDedup (url :: rest) =
        url :: specDedup (rest.filter (fun v => v ≠ url)) from by
      rw [specDedup]
      simp [hne]]
    rw [List.nodup_cons]
    refine ⟨?_, ih⟩
    intro hmem
    have := List.of_mem_filter (mem_specDedup hmem)
    simp at this

theorem dedupSeen_eq_specDedup :
    ∀ (l : List String) (seen : List String),
      dedupSeen seen l = specDedup (l.filter (fun v => !seen.contains v)) := by
  intro l
  induction l with
  | nil =>
    intro seen
    rw [List.filter_nil]
    rw [show specDedup ([] : List String) = [] from by rw [specDedup]]
    rfl
  | cons u t ih =>
    intro seen
    rw [List.filter_cons]
    cases hin : seen.contains u with
    | true =>
      rw [if_neg (by decide)]
      rw [show dedupSeen seen (u :: t) = (if !u.isEmpty && !seen.contains u
          then u :: dedupSeen (u :: seen) t else dedupSeen seen t) from rfl]
      rw [if_neg (by rw [hin]; simp)]
      exact ih seen
    | false =>
      rw [if_pos (by decide)]
      by_cases hemp : u = ""
      · subst hemp
        rw [show specDedup ("" :: t.filter (fun v => !seen.contains v)) =
            specDedup (t.filter (fun v => !seen.contains v)) from by rw [specDedup]; simp]
        rw [show dedupSeen seen ("" :: t) = (if !("" : String).isEmpty && !seen.contains ""
          then "" :: dedupSeen ("" :: seen) t else dedupSeen seen t) from rfl]
        rw [if_neg (by rw [show ("" : String).isEmpty = true from rfl]; simp)]
        exact ih seen
      · have hemp2 : u.isEmpty = false := by
          cases hb : u.isEmpty with
          | false => rfl
          | true => exact absurd ((String.isEmpty_iff u).mp hb) hemp
        rw [show specDedup (u :: t.filter (fun v => !seen.contains v)) =
            u :: specDedup ((t.filter (fun v => !seen.contains v)).filter
              (fun v => v ≠ u)) from by
          rw [specDedup]
          simp [hemp]]
        rw [show dedupSeen seen (u :: t) = (if !u.isEmpty && !seen.contains u
          then u :: dedupSeen (u :: seen) t else dedupSeen seen t) from rfl]
        rw [if_pos (by rw [hemp2, hin]; decide)]
        rw [ih (u :: seen)]
        have hfil : (t.filter (fun v => !seen.contains v)).filter (fun v => v ≠ u) =
            t.filter (fun v => !((u :: seen).contains v)) := by
          rw [List.filter_filter]
          apply List.filter_congr
          intro v hv
          show (decide (v ≠ u) && !seen.contains v) = !((u :: seen).contains v)
          rw [List.contains_cons]
          by_cases hvu : v = u
          · simp [hvu]
          · simp [hvu]
        rw [hfil]


theorem dedupSeen_nil : ∀ l : List String, dedupSeen [] l = specDedup l := by
  intro l
  rw [dedupSeen_eq_specDedup]
  congr 1
  exact List.filter_eq_self.mpr (fun a _ => rfl)

theorem specLink_of_code {link : PyVal}
    (h : ∀ v ∈ (if truthy link = true then [link] else []), ∃ s, v = PyVal.pstr s) :
    ∃ ls : List String, specLink link = .ok ls ∧
      (if truthy link = true then [link] else []) = ls.map PyVal.pstr := by
  cases link with
  | pstr s =>
    cases hs : s.isEmpty with
    | true =>
      have ht : truthy (PyVal.pstr s) = true → False := by
        intro hh
        rw [show truthy (PyVal.pstr s) = !s.isEmpty from rfl, hs] at hh
        exact Bool.noConfusion hh
      refine ⟨[], ?_, ?_⟩
      · show Except.ok (if s.isEmpty = true then [] else [s]) = _
        rw [if_pos hs]
      · rw [if_neg ht]
        rfl
    | false =>
      have ht : truthy (PyVal.pstr s) = true := by
        rw [show truthy (PyVal.pstr s) = !s.isEmpty from rfl, hs]
        rfl
      refine ⟨[s], ?_, ?_⟩
      · show Except.ok (if s.isEmpty = true then [] else [s]) = _
        rw [if_neg (by rw [hs]; decide)]
      · rw [if_pos ht]
        rfl
  | pnone => exact ⟨[], rfl, rfl⟩
  | pint n =>
    by_cases ht : truthy (PyVal.pint n) = true
    · obtain ⟨s, hs⟩ := h (PyVal.pint n) (by rw [if_pos ht]; exact List.mem_singleton.mpr rfl)
      exact PyVal.noConfusion hs
    · refine ⟨[], ?_, by rw [if_neg ht]; rfl⟩
      show (if truthy (PyVal.pint n) = true then Except.error "AttributeError"
        else Except.ok []) = _
      rw [if_neg ht]
  | plist l2 =>
    by_cases ht : truthy (PyVal.plist l2) = true
    · obtain ⟨s, hs⟩ := h (PyVal.plist l2) (by rw [if_pos ht]; exact List.mem_singleton.mpr rfl)
      exact PyVal.noConfusion hs
    · refine ⟨[], ?_, by rw [if_neg ht]; rfl⟩
      show (if truthy (PyVal.plist l2) = true then Except.error "AttributeError"
        else Except.ok []) = _
      rw [if_neg ht]
  | pdict d =>
    by_cases ht : truthy (PyVal.pdict d) = true
    · obtain ⟨s, hs⟩ := h (PyVal.pdict d) (by rw [if_pos ht]; exact List.mem_singleton.mpr rfl)
      exact PyVal.noConfusion hs
    · refine ⟨[], ?_, by rw [if_neg ht]; rfl⟩
      show (if truthy (PyVal.pdict d) = true then Except.error "AttributeError"
        else Except.ok []) = _
      rw [if_neg ht]

theorem code_of_specLink {link : PyVal} {ls : List String}
    (h : specLink link = .ok ls) :
    (if truthy link = true then [link] else []) = ls.map PyVal.pstr := by
  cases link with
  | pstr s =>
    have h2 : Except.ok (if s.isEmpty = true then ([] : List String) else [s]) = .ok ls := h
    have h3 := Except.ok.inj h2
    cases hs : s.isEmpty with
    | true =>
      rw [hs] at h3
      rw [if_neg (show ¬(truthy (PyVal.pstr s) = true) by
        rw [show truthy (PyVal.pstr s) = !s.isEmpty from rfl, hs]; decide)]
      rw [← h3]
      rfl
    | false =>
      rw [hs] at h3
      rw [if_pos (show truthy (PyVal.pstr s) = true by
        rw [show truthy (PyVal.pstr s) = !s.isEmpty from rfl, hs]; rfl)]
      rw [← h3]
      rfl
  | pnone =>
    have h3 := Except.ok.inj (h : Except.ok ([] : List String) = .ok ls)
    rw [if_neg (by decide), ← h3]
    rfl
  | pint n =>
    by_cases ht : truthy (PyVal.pint n) = true
    · have : (if truthy (PyVal.pint n) = true then Except.error "AttributeError"
          else Except.ok ([] : List String)) = .ok ls := h
      rw [if_pos ht] at this
      exact Except.noConfusion this
    · have : (if truthy (PyVal.pint n) = true then Except.error "AttributeError"
          else Except.ok ([] : List String)) = .ok ls := h
      rw [if_neg ht] at this
      rw [if_neg ht, ← Except.ok.inj this]
      rfl
  | plist l2 =>
    by_cases ht : truthy (PyVal.plist l2) = true
    · have : (if truthy (PyVal.plist l2) = true then Except.error "AttributeError"
          else Except.ok ([] : List String)) = .ok ls := h
      rw [if_pos ht] at this
      exact Except.noConfusion this
    · have : (if truthy (PyVal.plist l2) = true then Except.error "AttributeError"
          else Except.ok ([] : List String)) = .ok ls := h
      rw [if_neg ht] at this
      rw [if_neg ht, ← Except.ok.inj this]
      rfl
  | pdict d =>
    by_cases ht : truthy (PyVal.pdict d) = true
    · have : (if truthy (PyVal.pdict d) = true then Except.error "AttributeError"
          else Except.ok ([] : List String)) = .ok ls := h
      rw [if_pos ht] at this
      exact Except.noConfusion this
    · have : (if truthy (PyVal.pdict d) = true then Except.error "AttributeError"
          else Except.ok ([] : List String)) = .ok ls := h
      rw [if_neg ht] at this
      rw [if_neg ht, ← Except.ok.inj this]
      rfl


theorem specCardUrls_of_code :
    ∀ {cs : List PyVal} {vs : List PyVal}, collectCardUrls cs = .ok vs →
      (∀ v ∈ vs, ∃ s, v = PyVal.pstr s) →
      ∃ ss : List String, specCardUrls cs = .ok ss ∧ vs = ss.map PyVal.pstr := by
  intro cs
  induction cs with
  | nil =>
    intro vs h hstr
    exact ⟨[], rfl, (Except.ok.inj h).symm⟩
  | cons c t ih =>
    intro vs h hstr
    cases c with
    | pdict card =>
      have h2 : (do
          let rest ← collectCardUrls t
          let cu := pyGet card "link_url" .pnone
          pure (if truthy cu then cu :: rest else rest) :
            Except String (List PyVal)) = .ok vs := h
      cases hrec : collectCardUrls t with
      | error e =>
        rw [hrec] at h2
        exact Except.noConfusion h2
      | ok rest =>
        rw [hrec, except_bind_ok] at h2
        have h3 := Except.ok.inj h2
        by_cases htr : truthy (pyGet card "link_url" PyVal.pnone) = true
        · rw [if_pos htr] at h3
          have hvs : vs = pyGet card "link_url" PyVal.pnone :: rest := h3.symm
          obtain ⟨s, hs⟩ := hstr (pyGet card "link_url" PyVal.pnone) (by rw [hvs]; simp)
          have hrest : ∀ v ∈ rest, ∃ s2, v = PyVal.pstr s2 := by
            intro v hv
            exact hstr v (by rw [hvs]; simp [hv])
          obtain ⟨ss, hss, hrw⟩ := ih hrec hrest
          have hsne : s.isEmpty = false := by
            rw [hs] at htr
            cases hb : s.isEmpty with
            | false => rfl
            | true =>
              rw [show truthy (PyVal.pstr s) = !s.isEmpty from rfl, hb] at htr
              exact Bool.noConfusion htr
          refine ⟨s :: ss, ?_, ?_⟩
          · show (do
              let rest2 ← specCardUrls t
              match pyGet card "link_url" .pnone with
              | .pstr s2 => pure (if s2.isEmpty then rest2 else s2 :: rest2)
              | v => if truthy v then .error "AttributeError" else pure rest2 :
                Except String (List String)) = _
            rw [hss, except_bind_ok, hs]
            show pure (if s.isEmpty = true then ss else s :: ss) = _
            rw [if_neg (by rw [hsne]; decide)]
            rfl
          · rw [hvs, hs, hrw]
            rfl
        · rw [if_neg htr] at h3
          obtain ⟨ss, hss, hrw⟩ := ih hrec (by rw [h3]; exact hstr)
          refine ⟨ss, ?_, by rw [← h3]; exact hrw⟩
          show (do
            let rest2 ← specCardUrls t
            match pyGet card "link_url" .pnone with
            | .pstr s2 => pure (if s2.isEmpty then rest2 else s2 :: rest2)
            | v => if truthy v then .error "AttributeError" else pure rest2 :
              Except String (List String)) = _
          rw [hss, except_bind_ok]
          cases hcu : pyGet card "link_url" PyVal.pnone with
          | pstr s2 =>
            have hse : s2.isEmpty = true := by
              rw [hcu] at htr
              cases hb : s2.isEmpty with
              | true => rfl
              | false =>
                rw [show truthy (PyVal.pstr s2) = !s2.isEmpty from rfl, hb] at htr
                exact absurd rfl htr
            show pure (if s2.isEmpty = true then ss else s2 :: ss) = _
            rw [if_pos hse]
            rfl
          | pnone => rfl
          | pint n =>
            show (if truthy (PyVal.pint n) = true then Except.error "AttributeError"
              else pure ss) = _
            rw [if_neg (hcu ▸ htr)]
            rfl
          | plist l2 =>
            show (if truthy (PyVal.plist l2) = true then Except.error "AttributeError"
              else pure ss) = _
            rw [if_neg (hcu ▸ htr)]
            rfl
          | pdict d2 =>
            show (if truthy (PyVal.pdict d2) = true then Except.error "AttributeError"
              else pure ss) = _
            rw [if_neg (hcu ▸ htr)]
            rfl
    | pnone => exact Except.noConfusion h
    | pint n => exact Except.noConfusion h
    | pstr s => exact Except.noConfusion h
    | plist l2 => exact Except.noConfusion h


theorem code_of_specCardUrls :
    ∀ {cs : List PyVal} {ss : List String}, specCardUrls cs = .ok ss →
      collectCardUrls cs = .ok (ss.map PyVal.pstr) := by
  intro cs
  induction cs with
  | nil =>
    intro ss h
    rw [← Except.ok.inj (h : Except.ok ([] : List String) = .ok ss)]
    rfl
  | cons c t ih =>
    intro ss h
    cases c with
    | pdict card =>
      have h2 : (do
          let rest2 ← specCardUrls t
          match pyGet card "link_url" .pnone with
          | .pstr s2 => pure (if s2.isEmpty then rest2 else s2 :: rest2)
          | v => if truthy v then .error "AttributeError" else pure rest2 :
            Except String (List String)) = .ok ss := h
      cases hrec : specCardUrls t with
      | error e =>
        rw [hrec] at h2
        exact Except.noConfusion h2
      | ok ss0 =>
        rw [hrec, except_bind_ok] at h2
        have hcode : collectCardUrls (PyVal.pdict card :: t) = (do
            let rest ← collectCardUrls t
            let cu := pyGet card "link_url" .pnone
            pure (if truthy cu then cu :: rest else rest)) := rfl
        rw [hcode, ih hrec, except_bind_ok]
        cases hcu : pyGet card "link_url" PyVal.pnone with
        | pstr s2 =>
          rw [hcu] at h2
          cases hse : s2.isEmpty with
          | true =>
            have h3 : (Except.ok ss0 : Except String (List String)) = Except.ok ss := by
              rw [show (match PyVal.pstr s2 with
                | PyVal.pstr s3 => pure (if s3.isEmpty then ss0 else s3 :: ss0)
                | v => if truthy v then Except.error "AttributeError" else pure ss0 :
                  Except String (List String)) =
                pure (if s2.isEmpty = true then ss0 else s2 :: ss0) from rfl,
                if_pos hse] at h2
              exact h2
            rw [← Except.ok.inj h3]
            show pure (if truthy (PyVal.pstr s2) = true
              then PyVal.pstr s2 :: ss0.map PyVal.pstr else ss0.map PyVal.pstr) = _
            rw [if_neg (by rw [show truthy (PyVal.pstr s2) = !s2.isEmpty from rfl, hse]; decide)]
            rfl
          | false =>
            have h3 : (Except.ok (s2 :: ss0) : Except String (List String)) = Except.ok ss := by
              rw [show (match PyVal.pstr s2 with
                | PyVal.pstr s3 => pure (if s3.isEmpty then ss0 else s3 :: ss0)
                | v => if truthy v then Except.error "AttributeError" else pure ss0 :
                  Except String (List String)) =
                pure (if s2.isEmpty = true then ss0 else s2 :: ss0) from rfl,
                if_neg (by rw [hse]; decide)] at h2
              exact h2
            rw [← Except.ok.inj h3]
            show pure (if truthy (PyVal.pstr s2) = true
              then PyVal.pstr s2 :: ss0.map PyVal.pstr else ss0.map PyVal.pstr) = _
            rw [if_pos (by rw [show truthy (PyVal.pstr s2) = !s2.isEmpty from rfl, hse]; rfl)]
            rfl
        | pnone =>
          rw [hcu] at h2
          have h3 : (Except.ok ss0 : Except String (List String)) = Except.ok ss := h2
          rw [← Except.ok.inj h3]
          show pure (if truthy PyVal.pnone = true
            then PyVal.pnone :: ss0.map PyVal.pstr else ss0.map PyVal.pstr) = _
          rw [if_neg (by decide)]
          rfl
        | pint n =>
          rw [hcu] at h2
          by_cases ht : truthy (PyVal.pint n) = true
          · rw [show (match PyVal.pint n with
              | PyVal.pstr s3 => pure (if s3.isEmpty then ss0 else s3 :: ss0)
              | v => if truthy v then Except.error "AttributeError" else pure ss0 :
                Except String (List String)) =
              (if truthy (PyVal.pint n) = true then Except.error "AttributeError"
                else pure ss0) from rfl, if_pos ht] at h2
            exact Except.noConfusion h2
          · rw [show (match PyVal.pint n with
              | PyVal.pstr s3 => pure (if s3.isEmpty then ss0 else s3 :: ss0)
              | v => if truthy v then Except.error "AttributeError" else pure ss0 :
                Except String (List String)) =
              (if truthy (PyVal.pint n) = true then Except.error "AttributeError"
                else pure ss0) from rfl, if_neg ht] at h2
            rw [← Except.ok.inj (h2 : (Except.ok ss0 : Except String (List String)) = .ok ss)]
            show pure (if truthy (PyVal.pint n) = true
              then PyVal.pint n :: ss0.map PyVal.pstr else ss0.map PyVal.pstr) = _
            rw [if_neg ht]
            rfl
        | plist l2 =>
          rw [hcu] at h2
          by_cases ht : truthy (PyVal.plist l2) = true
          · rw [show (match PyVal.plist l2 with
              | PyVal.pstr s3 => pure (if s3.isEmpty then ss0 else s3 :: ss0)
              | v => if truthy v then Except.error "AttributeError" else pure ss0 :
                Except String (List String)) =
              (if truthy (PyVal.plist l2) = true then Except.error "AttributeError"
                else pure ss0) from rfl, if_pos ht] at h2
            exact Except.noConfusion h2
          · rw [show (match PyVal.plist l2 with
              | PyVal.pstr s3 => pure (if s3.isEmpty then ss0 else s3 :: ss0)
              | v => if truthy v then Except.error "AttributeError" else pure ss0 :
                Except String (List String)) =
              (if truthy (PyVal.plist l2) = true then Except.error "AttributeError"
                else pure ss0) from rfl, if_neg ht] at h2
            rw [← Except.ok.inj (h2 : (Except.ok ss0 : Except String (List String)) = .ok ss)]
            show pure (if truthy (PyVal.plist l2) = true
              then PyVal.plist l2 :: ss0.map PyVal.pstr else ss0.map PyVal.pstr) = _
            rw [if_neg ht]
            rfl
        | pdict d2 =>
          rw [hcu] at h2
          by_cases ht : truthy (PyVal.pdict d2) = true
          · rw [show (match PyVal.pdict d2 with
              | PyVal.pstr s3 => pure (if s3.isEmpty then ss0 else s3 :: ss0)
              | v => if truthy v then Except.error "AttributeError" else pure ss0 :
                Except String (List String)) =
              (if truthy (PyVal.pdict d2) = true then Except.error "AttributeError"
                else pure ss0) from rfl, if_pos ht] at h2
            exact Except.noConfusion h2
          · rw [show (match PyVal.pdict d2 with
              | PyVal.pstr s3 => pure (if s3.isEmpty then ss0 else s3 :: ss0)
              | v => if truthy v then Except.error "AttributeError" else pure ss0 :
                Except String (List String)) =
              (if truthy (PyVal.pdict d2) = true then Except.error "AttributeError"
                else pure ss0) from rfl, if_neg ht] at h2
            rw [← Except.ok.inj (h2 : (Except.ok ss0 : Except String (List String)) = .ok ss)]
            show pure (if truthy (PyVal.pdict d2) = true
              then PyVal.pdict d2 :: ss0.map PyVal.pstr else ss0.map PyVal.pstr) = _
            rw [if_neg ht]
            rfl
    | pnone => exact Except.noConfusion h
    | pint n => exact Except.noConfusion h
    | pstr s => exact Except.noConfusion h
    | plist l2 => exact Except.noConfusion h


theorem specCards_of_code {cards : PyVal} {vs : List PyVal}
    (h : iterateCards cards = .ok vs) (hstr : ∀ v ∈ vs, ∃ s, v = PyVal.pstr s) :
    ∃ ss : List String, specCards cards = .ok ss ∧ vs = ss.map PyVal.pstr := by
  cases cards with
  | plist cs => exact specCardUrls_of_code h hstr
  | pstr s =>
    have h2 : (if s.isEmpty = true then Except.ok ([] : List PyVal)
        else Except.error "AttributeError") = .ok vs := h
    cases hse : s.isEmpty with
    | true =>
      rw [if_pos hse] at h2
      refine ⟨[], ?_, (Except.ok.inj h2).symm⟩
      show (if s.isEmpty = true then Except.ok ([] : List String)
        else Except.error "AttributeError") = _
      rw [if_pos hse]
    | false =>
      rw [if_neg (by rw [hse]; decide)] at h2
      exact Except.noConfusion h2
  | pdict d =>
    have h2 : (if d.isEmpty = true then Except.ok ([] : List PyVal)
        else Except.error "AttributeError") = .ok vs := h
    cases hse : d.isEmpty with
    | true =>
      rw [if_pos hse] at h2
      refine ⟨[], ?_, (Except.ok.inj h2).symm⟩
      show (if d.isEmpty = true then Except.ok ([] : List String)
        else Except.error "AttributeError") = _
      rw [if_pos hse]
    | false =>
      rw [if_neg (by rw [hse]; decide)] at h2
      exact Except.noConfusion h2
  | pnone => exact Except.noConfusion h
  | pint n => exact Except.noConfusion h

theorem code_of_specCards {cards : PyVal} {ss : List String}
    (h : specCards cards = .ok ss) : iterateCards cards = .ok (ss.map PyVal.pstr) := by
  cases cards with
  | plist cs => exact code_of_specCardUrls h
  | pstr s =>
    have h2 : (if s.isEmpty = true then Except.ok ([] : List String)
        else Except.error "AttributeError") = .ok ss := h
    cases hse : s.isEmpty with
    | true =>
      rw [if_pos hse] at h2
      rw [← Except.ok.inj h2]
      show (if s.isEmpty = true then Except.ok ([] : List PyVal)
        else Except.error "AttributeError") = _
      rw [if_pos hse]
      rfl
    | false =>
      rw [if_neg (by rw [hse]; decide)] at h2
      exact Except.noConfusion h2
  | pdict d =>
    have h2 : (if d.isEmpty = true then Except.ok ([] : List String)
        else Except.error "AttributeError") = .ok ss := h
    cases hse : d.isEmpty with
    | true =>
      rw [if_pos hse] at h2
      rw [← Except.ok.inj h2]
      show (if d.isEmpty = true then Except.ok ([] : List PyVal)
        else Except.error "AttributeError") = _
      rw [if_pos hse]
      rfl
    | false =>
      rw [if_neg (by rw [hse]; decide)] at h2
      exact Except.noConfusion h2
  | pnone => exact Except.noConfusion h
  | pint n => exact Except.noConfusion h


theorem extract_urls_matches_spec (ad : List (String × PyVal)) (us : List String) :
    (extract_urls_from_ad ad = .ok us ↔ extractUrlsSpec ad = .ok us) ∧
    (extract_urls_from_ad ad = .ok us → us.Nodup) := by
  cases hsnap : pyGet ad "snapshot" (.pdict []) with
  | pdict snap =>
    have hcol2 : collectRawPy ad = (do
        let cardPart ← iterateCards (pyGet snap "cards" (PyVal.plist []))
        let capPart ← findallIfText (pyGet snap "caption" (PyVal.pstr ""))
        let bodPart ← findallIfText (bodyTextOf (pyGet snap "body" (PyVal.pdict [])))
        pure ((if truthy (pyGet snap "link_url" PyVal.pnone) = true
            then [pyGet snap "link_url" PyVal.pnone] else []) ++
          cardPart ++ capPart.map PyVal.pstr ++ bodPart.map PyVal.pstr)) := by
      unfold collectRawPy
      rw [hsnap]
    have hspec2 : extractUrlsSpec ad = (do
        let linkPart ← specLink (pyGet snap "link_url" PyVal.pnone)
        let cardPart ← specCards (pyGet snap "cards" (PyVal.plist []))
        let capPart ← findallIfText (pyGet snap "caption" (PyVal.pstr ""))
        let bodPart ← findallIfText (bodyTextOf (pyGet snap "body" (PyVal.pdict [])))
        pure (specDedup ((linkPart ++ cardPart ++ capPart ++ bodPart).map cleanUrl))) := by
      unfold extractUrlsSpec
      rw [hsnap]
    have hforward : extract_urls_from_ad ad = .ok us →
        extractUrlsSpec ad = .ok us ∧ us.Nodup := by
      intro h
      unfold extract_urls_from_ad at h
      rw [hcol2] at h
      cases hcards : iterateCards (pyGet snap "cards" (PyVal.plist [])) with
      | error e =>
        rw [hcards] at h
        exact Except.noConfusion h
      | ok cvs =>
      cases hcap : findallIfText (pyGet snap "caption" (PyVal.pstr "")) with
      | error e =>
        rw [hcards] at h
        simp only [except_bind_ok] at h
        rw [hcap] at h
        exact Except.noConfusion h
      | ok cap =>
      cases hbod : findallIfText (bodyTextOf (pyGet snap "body" (PyVal.pdict []))) with
      | error e =>
        rw [hcards] at h
        simp only [except_bind_ok] at h
        rw [hcap] at h
        simp only [except_bind_ok] at h
        rw [hbod] at h
        exact Except.noConfusion h
      | ok bod =>
      simp only [hcards, hcap, hbod, except_bind_ok, except_pure_eq] at h
      obtain ⟨strs, hraw⟩ := dedupCleanPy_ok_strings _ _ _ h
      have hallp : ∀ v ∈ ((if truthy (pyGet snap "link_url" PyVal.pnone) = true
          then [pyGet snap "link_url" PyVal.pnone] else []) ++ cvs ++
          cap.map PyVal.pstr ++ bod.map PyVal.pstr), ∃ s, v = PyVal.pstr s := by
        rw [hraw]
        intro v hv
        obtain ⟨s, _, rfl⟩ := List.mem_map.mp hv
        exact ⟨s, rfl⟩
      have hlinkp : ∀ v ∈ (if truthy (pyGet snap "link_url" PyVal.pnone) = true
          then [pyGet snap "link_url" PyVal.pnone] else []), ∃ s, v = PyVal.pstr s :=
        fun v hv => hallp v (List.mem_append_left _ (List.mem_append_left _
          (List.mem_append_left _ hv)))
      have hcvsp : ∀ v ∈ cvs, ∃ s, v = PyVal.pstr s :=
        fun v hv => hallp v (List.mem_append_left _ (List.mem_append_left _
          (List.mem_append_right _ hv)))
      obtain ⟨l1, hsl, hleq⟩ := specLink_of_code hlinkp
      obtain ⟨l2, hsc, hceq⟩ := specCards_of_code hcards hcvsp
      have hraw2 : (if truthy (pyGet snap "link_url" PyVal.pnone) = true
          then [pyGet snap "link_url" PyVal.pnone] else []) ++ cvs ++
          cap.map PyVal.pstr ++ bod.map PyVal.pstr =
          (l1 ++ l2 ++ cap ++ bod).map PyVal.pstr := by
        rw [hleq, hceq]
        simp [List.map_append]
      rw [hraw2, dedupCleanPy_eval, dedupSeen_nil] at h
      constructor
      · rw [hspec2]
        simp only [hsl, hsc, hcap, hbod, except_bind_ok, except_pure_eq]
        exact h
      · rw [← Except.ok.inj h]
        exact specDedup_nodup _
    have hbackward : extractUrlsSpec ad = .ok us → extract_urls_from_ad ad = .ok us := by
      intro h
      rw [hspec2] at h
      cases hsl : specLink (pyGet snap "link_url" PyVal.pnone) with
      | error e =>
        rw [hsl] at h
        exact Except.noConfusion h
      | ok l1 =>
      cases hsc : specCards (pyGet snap "cards" (PyVal.plist [])) with
      | error e =>
        rw [hsl] at h
        simp only [except_bind_ok] at h
        rw [hsc] at h
        exact Except.noConfusion h
      | ok l2 =>
      cases hcap : findallIfText (pyGet snap "caption" (PyVal.pstr "")) with
      | error e =>
        rw [hsl] at h
        simp only [except_bind_ok] at h
        rw [hsc] at h
        simp only [except_bind_ok] at h
        rw [hcap] at h
        exact Except.noConfusion h
      | ok cap =>
      cases hbod : findallIfText (bodyTextOf (pyGet snap "body" (PyVal.pdict []))) with
      | error e =>
        rw [hsl] at h
        simp only [except_bind_ok] at h
        rw [hsc] at h
        simp only [except_bind_ok] at h
        rw [hcap] at h
        simp only [except_bind_ok] at h
        rw [hbod] at h
        exact Except.noConfusion h
      | ok bod =>
      simp only [hsl, hsc, hcap, hbod, except_bind_ok, except_pure_eq] at h
      unfold extract_urls_from_ad
      rw [hcol2]
      simp only [code_of_specCards hsc, hcap, hbod, except_bind_ok, except_pure_eq]
      rw [code_of_specLink hsl]
      rw [show (l1.map PyVal.pstr) ++ (l2.map PyVal.pstr) ++
          cap.map PyVal.pstr ++ bod.map PyVal.pstr =
          (l1 ++ l2 ++ cap ++ bod).map PyVal.pstr from by simp [List.map_append]]
      rw [dedupCleanPy_eval, dedupSeen_nil]
      exact h
    exact ⟨⟨fun h => (hforward h).1, hbackward⟩, fun h => (hforward h).2⟩
  | pnone =>
    have hcol : collectRawPy ad = .error "AttributeError" := by
      unfold collectRawPy
      rw [hsnap]
    have hext : extract_urls_from_ad ad = .error "AttributeError" := by
      unfold extract_urls_from_ad
      rw [hcol]
      rfl
    have hspec : extractUrlsSpec ad = .error "AttributeError" := by
      unfold extractUrlsSpec
      rw [hsnap]
    refine ⟨⟨fun h => ?_, fun h => ?_⟩, fun h => ?_⟩
    · rw [hext] at h
      exact Except.noConfusion h
    · rw [hspec] at h
      exact Except.noConfusion h
    · rw [hext] at h
      exact Except.noConfusion h
  | pint n =>
    have hcol : collectRawPy ad = .error "AttributeError" := by
      unfold collectRawPy
      rw [hsnap]
    have hext : extract_urls_from_ad ad = .error "AttributeError" := by
      unfold extract_urls_from_ad
      rw [hcol]
      rfl
    have hspec : extractUrlsSpec ad = .error "AttributeError" := by
      unfold extractUrlsSpec
      rw [hsnap]
    refine ⟨⟨fun h => ?_, fun h => ?_⟩, fun h => ?_⟩
    · rw [hext] at h
      exact Except.noConfusion h
    · rw [hspec] at h
      exact Except.noConfusion h
    · rw [hext] at h
      exact Except.noConfusion h
  | pstr s =>
    have hcol : collectRawPy ad = .error "AttributeError" := by
      unfold collectRawPy
      rw [hsnap]
    have hext : extract_urls_from_ad ad = .error "AttributeError" := by
      unfold extract_urls_from_ad
      rw [hcol]
      rfl
    have hspec : extractUrlsSpec ad = .error "AttributeError" := by
      unfold extractUrlsSpec
      rw [hsnap]
    refine ⟨⟨fun h => ?_, fun h => ?_⟩, fun h => ?_⟩
    · rw [hext] at h
      exact Except.noConfusion h
    · rw [hspec] at h
      exact Except.noConfusion h
    · rw [hext] at h
      exact Except.noConfusion h
  | plist l =>
    have hcol : collectRawPy ad = .error "AttributeError" := by
      unfold collectRawPy
      rw [hsnap]
    have hext : extract_urls_from_ad ad = .error "AttributeError" := by
      unfold extract_urls_from_ad
      rw [hcol]
      rfl
    have hspec : extractUrlsSpec ad = .error "AttributeError" := by
      unfold extractUrlsSpec
      rw [hsnap]
    refine ⟨⟨fun h => ?_, fun h => ?_⟩, fun h => ?_⟩
    · rw [hext] at h
      exact Except.noConfusion h
    · rw [hspec] at h
      exact Except.noConfusion h
    · rw [hext] at h
      exact Except.noConfusion h

/-- C6: for every ad, a successful URL extraction produces exactly what
the spec describes: the candidates of snapshot.link_url, the cards in
card order, the caption regex matches and the body-text regex matches, in
that fixed order, each cleaned of surrounding whitespace and of trailing
punctuation, deduplicated by exact string equality keeping first
occurrences (so the result has no duplicates, and differently-cased URLs
are kept apart); and the spec-side description succeeds on exactly the
same ads. -/
theorem extract_urls_from_ad_matches_spec (ad : List (String × PyVal)) (us : List String) :
    (extract_urls_from_ad ad = .ok us ↔ extractUrlsSpec ad = .ok us) ∧
    (extract_urls_from_ad ad = .ok us → us.Nodup) :=
  extract_urls_matches_spec ad us

/-- Witness for C6 at a concrete ad with a duplicated and a
differently-cased URL across sources. -/
theorem extract_urls_from_ad_matches_spec_witness :
    extractUrlsSpec sampleSelfAd = .ok ["https://l.facebook.com/r", "https://TBshopp.com/x"] ∧
    List.Nodup ["https://l.facebook.com/r", "https://TBshopp.com/x"] := by
  constructor
  · exact (extract_urls_from_ad_matches_spec sampleSelfAd
      ["https://l.facebook.com/r", "https://TBshopp.com/x"]).1.mp (by rfl)
  · exact (extract_urls_from_ad_matches_spec sampleSelfAd
      ["https://l.facebook.com/r", "https://TBshopp.com/x"]).2 (by rfl)

end SellersAdsMetrics
